import Mathlib

/-!
Verification of the var-sync change-propagation engine.

This file shallowly embeds the parts of the Go source that the verified
claims concern: the format detector (pkg/models), the key-path segment
grammar, the tree navigator (GetValue/SetValue), the YAML and TOML
surgical rewriters (internal/parser/parser.go), and the debounce/batch
logic of the watcher (internal/watcher/watcher.go).  Go strings are
modelled as lists of characters; Go maps as association lists with
replace-or-append update; Go errors as Except values.
-/

set_option maxRecDepth 20000

namespace VarSync

/-- Go strings, modelled as lists of characters (bytes of the ASCII
inputs the claims use). -/
abbrev Str := List Char

/-- Conversion from Lean string literals to the model's string type. -/
def str (s : String) : Str := s.data

/-- Left and right curly brace characters (used in character sets). -/
def lbrace : Char := Char.ofNat 123

/-- Right curly brace character. -/
def rbrace : Char := Char.ofNat 125

/-! ## Association lists: the model of Go maps -/

/-- Lookup in a Go map modelled as an association list (keys unique). -/
def mapGet {α : Type} [DecidableEq α] {β : Type} : List (α × β) → α → Option β
  | [], _ => none
  | (k, v) :: rest, key => if k = key then some v else mapGet rest key

/-- Go map assignment `m[k] = v`: replace the binding if present, else append. -/
def mapSet {α : Type} [DecidableEq α] {β : Type} : List (α × β) → α → β → List (α × β)
  | [], key, v => [(key, v)]
  | (k, w) :: rest, key, v =>
    if k = key then (key, v) :: rest else (k, w) :: mapSet rest key v

theorem mapGet_mapSet_self {α : Type} [DecidableEq α] {β : Type}
    (m : List (α × β)) (k : α) (v : β) : mapGet (mapSet m k v) k = some v := by
  induction m with
  | nil => simp [mapSet, mapGet]
  | cons hd tl ih =>
    obtain ⟨k0, w0⟩ := hd
    by_cases h : k0 = k
    · simp [mapSet, h, mapGet]
    · simp [mapSet, h, mapGet, ih]

/-! ## Generic string utilities shared by the embedded functions -/

/-- Index of the first occurrence of a character, `none` if absent. -/
def charIdx (c : Char) : Str → Option Nat
  | [] => none
  | d :: rest => if d = c then some 0 else (charIdx c rest).map (· + 1)

theorem charIdx_eq_none_iff (c : Char) (s : Str) : charIdx c s = none ↔ c ∉ s := by
  induction s with
  | nil => simp [charIdx]
  | cons d rest ih =>
    by_cases h : d = c
    · simp [charIdx, h]
    · simp [charIdx, h, Option.map_eq_none, ih, Ne.symm h]

theorem charIdx_append_of_not_mem (c : Char) (l r : Str) (h : c ∉ l) :
    charIdx c (l ++ (c :: r)) = some l.length := by
  induction l with
  | nil => simp [charIdx]
  | cons d rest ih =>
    have hd : d ≠ c := fun he => h (he ▸ List.mem_cons_self d rest)
    have hr : c ∉ rest := fun hm => h (List.mem_cons_of_mem d hm)
    simp [charIdx, hd, ih hr]

/-- `strings.SplitN(s, sep, -1)` on a single-character separator
(Go `strings.Split`).  Splitting the empty string yields `[[]]`. -/
def splitOnChar (sep : Char) : Str → List Str
  | [] => [[]]
  | c :: rest =>
    if c = sep then [] :: splitOnChar sep rest
    else
      match splitOnChar sep rest with
      | p :: ps => (c :: p) :: ps
      | [] => [[c]]

/-- `strings.Join(parts, sep)` for a single-character separator. -/
def joinChar (sep : Char) : List Str → Str
  | [] => []
  | [p] => p
  | p :: ps => p ++ sep :: joinChar sep ps

theorem splitOnChar_ne_nil (sep : Char) (s : Str) : splitOnChar sep s ≠ [] := by
  cases s with
  | nil => simp [splitOnChar]
  | cons c rest =>
    by_cases h : c = sep
    · simp [splitOnChar, h]
    · simp only [splitOnChar, if_neg h]
      cases splitOnChar sep rest <;> simp

theorem joinChar_cons_of_ne_nil (sep : Char) (p : Str) (ps : List Str) (h : ps ≠ []) :
    joinChar sep (p :: ps) = p ++ sep :: joinChar sep ps := by
  cases ps with
  | nil => exact absurd rfl h
  | cons q qs => rfl

theorem joinChar_splitOnChar (sep : Char) (s : Str) :
    joinChar sep (splitOnChar sep s) = s := by
  induction s with
  | nil => simp [splitOnChar, joinChar]
  | cons c rest ih =>
    by_cases h : c = sep
    · rw [h]
      simp only [splitOnChar, eq_self_iff_true, if_true]
      rw [joinChar_cons_of_ne_nil sep [] _ (splitOnChar_ne_nil sep rest), ih]
      rfl
    · simp only [splitOnChar, if_neg h]
      cases hs : splitOnChar sep rest with
      | nil => exact absurd hs (splitOnChar_ne_nil sep rest)
      | cons p ps =>
        cases ps with
        | nil =>
          rw [hs] at ih
          simp only [joinChar] at ih ⊢
          rw [ih]
        | cons q qs =>
          rw [hs] at ih
          rw [joinChar_cons_of_ne_nil sep p (q :: qs) (by simp)] at ih
          rw [joinChar_cons_of_ne_nil sep (c :: p) (q :: qs) (by simp)]
          rw [← ih]
          rfl

theorem not_mem_of_mem_splitOnChar (sep : Char) (s : Str) :
    ∀ p ∈ splitOnChar sep s, sep ∉ p := by
  induction s with
  | nil => simp [splitOnChar]
  | cons c rest ih =>
    by_cases h : c = sep
    · subst h
      simp only [splitOnChar, if_pos rfl]
      intro p hp
      rcases List.mem_cons.1 hp with h1 | h1
      · subst h1; simp
      · exact ih p h1
    · simp only [splitOnChar, if_neg h]
      cases hs : splitOnChar sep rest with
      | nil => exact absurd hs (splitOnChar_ne_nil sep rest)
      | cons q qs =>
        intro p hp
        rcases List.mem_cons.1 hp with h1 | h1
        · subst h1
          intro hm
          rcases List.mem_cons.1 hm with h2 | h2
          · exact h h2.symm
          · exact ih q (hs ▸ List.mem_cons_self q qs) h2
        · exact ih p (hs ▸ List.mem_cons_of_mem q h1)

theorem splitOnChar_of_not_mem (sep : Char) (p : Str) (hp : sep ∉ p) :
    splitOnChar sep p = [p] := by
  induction p with
  | nil => simp [splitOnChar]
  | cons c rest ih =>
    have hc : c ≠ sep := fun he => hp (he ▸ List.mem_cons_self c rest)
    have hr : sep ∉ rest := fun hm => hp (List.mem_cons_of_mem c hm)
    simp only [splitOnChar, if_neg hc, ih hr]

theorem splitOnChar_append_sep (sep : Char) (p t : Str) (hp : sep ∉ p) :
    splitOnChar sep (p ++ sep :: t) = p :: splitOnChar sep t := by
  induction p with
  | nil => simp [splitOnChar]
  | cons c rest ih =>
    have hc : c ≠ sep := fun he => hp (he ▸ List.mem_cons_self c rest)
    have hr : sep ∉ rest := fun hm => hp (List.mem_cons_of_mem c hm)
    simp only [List.cons_append, splitOnChar, if_neg hc, List.append_eq, ih hr]

theorem splitOnChar_joinChar (sep : Char) (ls : List Str) (hne : ls ≠ [])
    (h : ∀ p ∈ ls, sep ∉ p) : splitOnChar sep (joinChar sep ls) = ls := by
  induction ls with
  | nil => exact absurd rfl hne
  | cons p ps ih =>
    cases ps with
    | nil =>
      simp only [joinChar]
      exact splitOnChar_of_not_mem sep p (h p (List.mem_cons_self p []))
    | cons q qs =>
      rw [joinChar_cons_of_ne_nil sep p (q :: qs) (by simp)]
      rw [splitOnChar_append_sep sep p _ (h p (List.mem_cons_self p _))]
      rw [ih (by simp) (fun r hr => h r (List.mem_cons_of_mem p hr))]

/-- Whitespace as trimmed by Go `strings.TrimSpace` (ASCII fragment). -/
def isSpaceChar (c : Char) : Bool := c = ' ' || c = '\t' || c = '\n' || c = '\r'

/-- `strings.TrimSpace`. -/
def trimSpace (s : Str) : Str :=
  ((s.dropWhile (fun c => isSpaceChar c)).reverse.dropWhile (fun c => isSpaceChar c)).reverse

/-- `strings.Trim(s, cutset)` for an explicit character set. -/
def trimCharSet (cut : List Char) (s : Str) : Str :=
  ((s.dropWhile (fun c => c ∈ cut)).reverse.dropWhile (fun c => c ∈ cut)).reverse

/-- `strings.Index(s, pat)`: index of the first occurrence of `pat`. -/
def strIndex (pat : Str) : Str → Option Nat
  | [] => if pat = [] then some 0 else none
  | c :: rest =>
    if pat.isPrefixOf (c :: rest) then some 0
    else (strIndex pat rest).map (· + 1)

/-! ## Format detector (pkg/models, DetectFormat) -/

/-- `FileFormat` is a string type in the source (`type FileFormat string`). -/
abbrev FileFormat := Str

def FormatJSON : FileFormat := str "json"

def FormatYAML : FileFormat := str "yaml"

def FormatTOML : FileFormat := str "toml"

/-- The suffix test used by `DetectFormat`: the source's
`len(p) >= len(suf) && p[len(p)-len(suf):] == suf` comparison. -/
def hasSuffix (p suf : Str) : Prop :=
  suf.length ≤ p.length ∧ p.drop (p.length - suf.length) = suf

instance (p suf : Str) : Decidable (hasSuffix p suf) := by
  unfold hasSuffix; infer_instance

/-- `models.DetectFormat`: decides by case-sensitive suffix; any path not
ending in `.yaml`, `.yml`, `.toml`, or `.json` defaults to JSON. -/
def DetectFormat (p : Str) : FileFormat :=
  if hasSuffix p (str ".yaml") then FormatYAML
  else if hasSuffix p (str ".yml") then FormatYAML
  else if hasSuffix p (str ".toml") then FormatTOML
  else if hasSuffix p (str ".json") then FormatJSON
  else FormatJSON

/-- The switch in `parser.LoadFile` dispatches on the detected format;
its default branch returns the "unsupported file format" error. -/
inductive LoadBranch where
  | json
  | yaml
  | toml
  | unsupported
  deriving DecidableEq

/-- The format dispatch of `parser.LoadFile` (the file parsing itself is
performed by external libraries and is not modelled). -/
def loadFileBranch (format : FileFormat) : LoadBranch :=
  if format = FormatJSON then .json
  else if format = FormatYAML then .yaml
  else if format = FormatTOML then .toml
  else .unsupported

theorem hasSuffix_eq_of_length_eq {p s t : Str} (hs : hasSuffix p s) (ht : hasSuffix p t)
    (h : s.length = t.length) : s = t := by
  obtain ⟨_, h2⟩ := hs
  obtain ⟨_, h4⟩ := ht
  rw [← h2, ← h4, h]

theorem hasSuffix_drop {p s : Str} (hs : hasSuffix p s) (k : Nat) (hk : k ≤ s.length) :
    hasSuffix p (s.drop k) := by
  obtain ⟨h1, h2⟩ := hs
  constructor
  · simp only [List.length_drop]
    omega
  · have h3 : (p.drop (p.length - s.length)).drop k = s.drop k := by rw [h2]
    rw [List.drop_drop] at h3
    have h4 : p.length - s.length + k = p.length - (s.drop k).length := by
      simp only [List.length_drop]
      omega
    rw [h4] at h3
    exact h3

theorem detectFormat_of_yaml (p : Str) (h : hasSuffix p (str ".yaml")) :
    DetectFormat p = FormatYAML := by
  unfold DetectFormat
  rw [if_pos h]

theorem detectFormat_of_yml (p : Str) (h : hasSuffix p (str ".yml")) :
    DetectFormat p = FormatYAML := by
  have hne : ¬ hasSuffix p (str ".yaml") := by
    intro hc
    have hdrop : hasSuffix p ((str ".yaml").drop 1) := hasSuffix_drop hc 1 (by decide)
    have := hasSuffix_eq_of_length_eq hdrop h (by decide)
    exact absurd this (by decide)
  unfold DetectFormat
  rw [if_neg hne, if_pos h]

theorem detectFormat_of_toml (p : Str) (h : hasSuffix p (str ".toml")) :
    DetectFormat p = FormatTOML := by
  have hne1 : ¬ hasSuffix p (str ".yaml") := by
    intro hc
    have := hasSuffix_eq_of_length_eq hc h (by decide)
    exact absurd this (by decide)
  have hne2 : ¬ hasSuffix p (str ".yml") := by
    intro hc
    have hdrop : hasSuffix p ((str ".toml").drop 1) := hasSuffix_drop h 1 (by decide)
    have := hasSuffix_eq_of_length_eq hdrop hc (by decide)
    exact absurd this (by decide)
  unfold DetectFormat
  rw [if_neg hne1, if_neg hne2, if_pos h]

theorem detectFormat_of_json (p : Str) (h : hasSuffix p (str ".json")) :
    DetectFormat p = FormatJSON := by
  have hne1 : ¬ hasSuffix p (str ".yaml") := by
    intro hc
    have := hasSuffix_eq_of_length_eq hc h (by decide)
    exact absurd this (by decide)
  have hne2 : ¬ hasSuffix p (str ".yml") := by
    intro hc
    have hdrop : hasSuffix p ((str ".json").drop 1) := hasSuffix_drop h 1 (by decide)
    have := hasSuffix_eq_of_length_eq hdrop hc (by decide)
    exact absurd this (by decide)
  have hne3 : ¬ hasSuffix p (str ".toml") := by
    intro hc
    have := hasSuffix_eq_of_length_eq hc h (by decide)
    exact absurd this (by decide)
  unfold DetectFormat
  rw [if_neg hne1, if_neg hne2, if_neg hne3, if_pos h]

theorem detectFormat_of_env (p : Str) (h : hasSuffix p (str ".env")) :
    DetectFormat p = FormatJSON := by
  have hne1 : ¬ hasSuffix p (str ".yaml") := by
    intro hc
    have hdrop : hasSuffix p ((str ".yaml").drop 1) := hasSuffix_drop hc 1 (by decide)
    have := hasSuffix_eq_of_length_eq hdrop h (by decide)
    exact absurd this (by decide)
  have hne2 : ¬ hasSuffix p (str ".yml") := by
    intro hc
    have := hasSuffix_eq_of_length_eq hc h (by decide)
    exact absurd this (by decide)
  have hne3 : ¬ hasSuffix p (str ".toml") := by
    intro hc
    have hdrop : hasSuffix p ((str ".toml").drop 1) := hasSuffix_drop hc 1 (by decide)
    have := hasSuffix_eq_of_length_eq hdrop h (by decide)
    exact absurd this (by decide)
  have hne4 : ¬ hasSuffix p (str ".json") := by
    intro hc
    have hdrop : hasSuffix p ((str ".json").drop 1) := hasSuffix_drop hc 1 (by decide)
    have := hasSuffix_eq_of_length_eq hdrop h (by decide)
    exact absurd this (by decide)
  unfold DetectFormat
  rw [if_neg hne1, if_neg hne2, if_neg hne3, if_neg hne4]

theorem detectFormat_default (p : Str)
    (h1 : ¬ hasSuffix p (str ".yaml")) (h2 : ¬ hasSuffix p (str ".yml"))
    (h3 : ¬ hasSuffix p (str ".toml")) : DetectFormat p = FormatJSON := by
  unfold DetectFormat
  rw [if_neg h1, if_neg h2, if_neg h3]
  by_cases h4 : hasSuffix p (str ".json")
  · rw [if_pos h4]
  · rw [if_neg h4]

/-- C5 counterexample: the claim maps `.env` to an `env` format, but the
source has no `env` format at all — `DetectFormat` sends `a.env` to the
JSON format (the default), whose string value is `json`, not `env`. -/
theorem c5_env_counterexample :
    DetectFormat (str "a.env") = FormatJSON ∧ FormatJSON ≠ str "env" := by
  constructor
  · decide
  · decide

/-- C5 (amended): the format detector decides by case-sensitive suffix
only — `.yaml`/`.yml` map to yaml, `.toml` to toml, `.json` to json, and
any other path, including one ending in `.env`, defaults to json (there
is no env format in the code). -/
theorem c5_format_detector_suffix_rules (p : Str) :
    (hasSuffix p (str ".yaml") → DetectFormat p = FormatYAML) ∧
    (hasSuffix p (str ".yml") → DetectFormat p = FormatYAML) ∧
    (hasSuffix p (str ".toml") → DetectFormat p = FormatTOML) ∧
    (hasSuffix p (str ".json") → DetectFormat p = FormatJSON) ∧
    (hasSuffix p (str ".env") → DetectFormat p = FormatJSON) ∧
    (¬ hasSuffix p (str ".yaml") → ¬ hasSuffix p (str ".yml") →
      ¬ hasSuffix p (str ".toml") → DetectFormat p = FormatJSON) :=
  ⟨detectFormat_of_yaml p, detectFormat_of_yml p, detectFormat_of_toml p,
   detectFormat_of_json p, detectFormat_of_env p,
   fun h1 h2 h3 => detectFormat_default p h1 h2 h3⟩

/-- Witness for C5: concrete instances of the amended suffix rules,
including case-sensitivity (`.YAML` does not match) and the `.env`
default. -/
theorem c5_format_detector_suffix_rules_witness :
    DetectFormat (str "conf.yaml") = FormatYAML ∧
    DetectFormat (str "conf.env") = FormatJSON ∧
    DetectFormat (str "conf.YAML") = FormatJSON :=
  ⟨(c5_format_detector_suffix_rules (str "conf.yaml")).1 (by decide),
   (c5_format_detector_suffix_rules (str "conf.env")).2.2.2.2.1 (by decide),
   (c5_format_detector_suffix_rules (str "conf.YAML")).2.2.2.2.2
     (by decide) (by decide) (by decide)⟩

/-- C10: the format detector is total with range exactly the three
formats json, yaml, toml — it never yields `env` or anything else — so
the `unsupported file format` branch of `LoadFile` can never be taken;
paths ending in `.env`, `.txt` or without extension all parse as JSON. -/
theorem c10_detector_range_loadfile_total :
    (∀ p : Str, DetectFormat p = FormatJSON ∨ DetectFormat p = FormatYAML ∨
      DetectFormat p = FormatTOML) ∧
    (∀ p : Str, DetectFormat p ≠ str "env") ∧
    (∀ p : Str, loadFileBranch (DetectFormat p) ≠ LoadBranch.unsupported) ∧
    DetectFormat (str "a.env") = FormatJSON ∧
    DetectFormat (str "a.txt") = FormatJSON ∧
    DetectFormat (str "noext") = FormatJSON ∧
    DetectFormat (str "a.yaml") = FormatYAML ∧
    DetectFormat (str "a.toml") = FormatTOML ∧
    DetectFormat (str "a.json") = FormatJSON := by
  have hrange : ∀ p : Str, DetectFormat p = FormatJSON ∨ DetectFormat p = FormatYAML ∨
      DetectFormat p = FormatTOML := by
    intro p
    unfold DetectFormat
    split_ifs <;> simp
  refine ⟨hrange, ?_, ?_, by decide, by decide, by decide, by decide, by decide, by decide⟩
  · intro p
    rcases hrange p with h | h | h <;> rw [h] <;> decide
  · intro p
    rcases hrange p with h | h | h <;> rw [h] <;> decide

/-! ## Decimal digits: the model of strconv.Atoi and Sprintf %d -/

/-- Numeric value of an ASCII digit character. -/
def digitVal (c : Char) : Nat := c.toNat - 48

/-- The ASCII digit character for `n < 10`. -/
def digitChar (n : Nat) : Char :=
  if n = 0 then '0' else if n = 1 then '1' else if n = 2 then '2'
  else if n = 3 then '3' else if n = 4 then '4' else if n = 5 then '5'
  else if n = 6 then '6' else if n = 7 then '7' else if n = 8 then '8' else '9'

/-- Fuel-indexed decimal rendering; `fuel > n` always suffices. -/
def natToDigitsAux : Nat → Nat → Str
  | 0, _ => []
  | fuel + 1, n =>
    if n < 10 then [digitChar n]
    else natToDigitsAux fuel (n / 10) ++ [digitChar (n % 10)]

/-- Decimal rendering of a natural number (the model of `fmt` `%d`). -/
def natToDigits (n : Nat) : Str := natToDigitsAux (n + 1) n

/-- Decimal parsing of a digit string (the model of `strconv.Atoi` on
digit-only input; Go's int-overflow failure is not modelled). -/
def digitsToNat (ds : Str) : Nat := ds.foldl (fun a c => a * 10 + digitVal c) 0

theorem digitVal_digitChar {n : Nat} (h : n < 10) : digitVal (digitChar n) = n := by
  interval_cases n <;> decide

theorem isDigit_digitChar {n : Nat} (h : n < 10) : (digitChar n).isDigit = true := by
  interval_cases n <;> decide

theorem natToDigitsAux_spec (fuel : Nat) : ∀ n, n < fuel → ∀ a : Nat,
    (natToDigitsAux fuel n).foldl (fun a c => a * 10 + digitVal c) a =
      a * 10 ^ (natToDigitsAux fuel n).length + n := by
  induction fuel with
  | zero => intro n hn; omega
  | succ fuel ih =>
    intro n hn a
    by_cases h10 : n < 10
    · simp [natToDigitsAux, h10, digitVal_digitChar h10]
    · have hdiv : n / 10 < fuel := by
        have h1 : n / 10 < n := Nat.div_lt_self (by omega) (by omega)
        omega
      have hmod : n % 10 < 10 := Nat.mod_lt n (by omega)
      simp only [natToDigitsAux, if_neg h10, List.foldl_append, List.foldl_cons,
        List.foldl_nil, List.length_append, List.length_cons, List.length_nil]
      rw [ih (n / 10) hdiv a, digitVal_digitChar hmod]
      have hnm : 10 * (n / 10) + n % 10 = n := Nat.div_add_mod n 10
      have hpow : 10 ^ ((natToDigitsAux fuel (n / 10)).length + (0 + 1)) =
          10 ^ (natToDigitsAux fuel (n / 10)).length * 10 := by
        rw [Nat.zero_add, pow_succ]
      rw [hpow]
      have : (a * 10 ^ (natToDigitsAux fuel (n / 10)).length + n / 10) * 10 + n % 10 =
          a * (10 ^ (natToDigitsAux fuel (n / 10)).length * 10) +
            (10 * (n / 10) + n % 10) := by ring
      rw [this, hnm]

theorem digitsToNat_natToDigits (n : Nat) : digitsToNat (natToDigits n) = n := by
  unfold digitsToNat natToDigits
  rw [natToDigitsAux_spec (n + 1) n (by omega) 0]
  simp

theorem natToDigits_ne_nil (n : Nat) : natToDigits n ≠ [] := by
  unfold natToDigits natToDigitsAux
  by_cases h : n < 10 <;> simp [h]

theorem natToDigitsAux_all_digit (fuel : Nat) : ∀ n, n < fuel →
    ∀ c ∈ natToDigitsAux fuel n, c.isDigit = true := by
  induction fuel with
  | zero => intro n hn; omega
  | succ fuel ih =>
    intro n hn c hc
    by_cases h10 : n < 10
    · simp only [natToDigitsAux, if_pos h10, List.mem_singleton] at hc
      exact hc ▸ isDigit_digitChar h10
    · have hdiv : n / 10 < fuel := by
        have h1 : n / 10 < n := Nat.div_lt_self (by omega) (by omega)
        omega
      simp only [natToDigitsAux, if_neg h10, List.mem_append, List.mem_singleton] at hc
      rcases hc with hc | hc
      · exact ih (n / 10) hdiv c hc
      · exact hc ▸ isDigit_digitChar (Nat.mod_lt n (by omega))

theorem natToDigits_all_digit (n : Nat) : ∀ c ∈ natToDigits n, c.isDigit = true :=
  natToDigitsAux_all_digit (n + 1) n (by omega)

theorem not_bracket_of_isDigit {c : Char} (h : c.isDigit = true) : c ≠ '[' := by
  intro he
  rw [he] at h
  exact absurd h (by decide)

/-! ## Key-path segments (parser.go, parseKeySegment) -/

/-- The result of `parseKeySegment`: the Go function returns
`(key, index, err)` with index `-1` for "no index"; we model the index
as an `Option Nat`. -/
structure Segment where
  key : Str
  index : Option Nat
  deriving DecidableEq

/-- `parseKeySegment`: matches the regular expression
`([^[]+)\[(\d+)\]` anchored at both ends.  A segment without `[` is
returned unchanged with no index; a segment containing `[` that does not
match the pattern is an error. -/
def parseKeySegment (seg : Str) : Except Str Segment :=
  match charIdx '[' seg with
  | none => .ok ⟨seg, none⟩
  | some i =>
    let name := seg.take i
    let rest := seg.drop (i + 1)
    let body := rest.take (rest.length - 1)
    if i ≠ 0 ∧ rest.getLast? = some ']' ∧ body ≠ [] ∧ body.all Char.isDigit then
      .ok ⟨name, some (digitsToNat body)⟩
    else .error (str "invalid array syntax: " ++ seg)

theorem parseKeySegment_no_bracket (seg : Str) (h : '[' ∉ seg) :
    parseKeySegment seg = .ok ⟨seg, none⟩ := by
  unfold parseKeySegment
  rw [(charIdx_eq_none_iff '[' seg).2 h]

/-- Auxiliary: lists ending in a given character split off that character. -/
theorem eq_take_append_of_getLast {l : Str} {a : Char} (h : l.getLast? = some a) :
    l = l.take (l.length - 1) ++ [a] := by
  induction l with
  | nil => simp at h
  | cons x t ih =>
    cases t with
    | nil =>
      simp only [List.getLast?_singleton, Option.some.injEq] at h
      simp [h]
    | cons y s =>
      rw [List.getLast?_cons_cons] at h
      have := ih h
      calc x :: y :: s = x :: ((y :: s).take ((y :: s).length - 1) ++ [a]) := by rw [← this]
        _ = (x :: y :: s).take ((x :: y :: s).length - 1) ++ [a] := by
              simp [List.length_cons]

theorem take_length_append {α : Type} (l r : List α) : (l ++ r).take l.length = l := by
  induction l with
  | nil => simp
  | cons c t ih => simp [ih]

theorem drop_length_append {α : Type} (l r : List α) : (l ++ r).drop l.length = r := by
  induction l with
  | nil => simp
  | cons c t ih => simp [ih]

theorem getLast_append_singleton {α : Type} (l : List α) (a : α) :
    (l ++ [a]).getLast? = some a := by
  induction l with
  | nil => simp
  | cons c t ih =>
    cases t with
    | nil => simp
    | cons y s => simpa using ih

/-- Decomposition of a string at the first occurrence of a character. -/
theorem charIdx_decomp {c : Char} {s : Str} {i : Nat} (h : charIdx c s = some i) :
    s.take i ++ c :: s.drop (i + 1) = s ∧ c ∉ s.take i ∧ i < s.length := by
  induction s generalizing i with
  | nil => simp [charIdx] at h
  | cons d rest ih =>
    by_cases hd : d = c
    · simp only [charIdx, if_pos hd, Option.some.injEq] at h
      subst hd
      simp [← h]
    · simp only [charIdx, if_neg hd] at h
      cases hc : charIdx c rest with
      | none => rw [hc] at h; simp at h
      | some j =>
        rw [hc] at h
        simp only [Option.map_some', Option.some.injEq] at h
        obtain ⟨h1, h2, h3⟩ := ih hc
        subst h
        refine ⟨by simpa using h1, by simp [hd]; exact ⟨fun hcd => hd hcd.symm, h2⟩, by simpa using h3⟩

/-- The pattern accepted by the segment regular expression: a nonempty
bracket-free name, `[`, a nonempty digit string, `]`. -/
def SegPattern (seg : Str) : Prop :=
  ∃ name ds, seg = name ++ '[' :: (ds ++ [']']) ∧ name ≠ [] ∧ '[' ∉ name ∧
    ds ≠ [] ∧ ds.all Char.isDigit = true

theorem segPattern_getLast {seg : Str} (h : SegPattern seg) :
    seg.getLast? = some ']' := by
  obtain ⟨name, ds, heq, -, -, -, -⟩ := h
  rw [heq]
  have : name ++ '[' :: (ds ++ [']']) = (name ++ '[' :: ds) ++ [']'] := by simp
  rw [this, getLast_append_singleton]

theorem parseKeySegment_error_of_not_pattern (seg : Str) (hmem : '[' ∈ seg)
    (hnp : ¬ SegPattern seg) : ∃ e, parseKeySegment seg = .error e := by
  have hidx : ∃ i, charIdx '[' seg = some i := by
    cases hc : charIdx '[' seg with
    | none => exact absurd ((charIdx_eq_none_iff '[' seg).1 hc) (not_not_intro hmem)
    | some i => exact ⟨i, rfl⟩
  obtain ⟨i, hi⟩ := hidx
  unfold parseKeySegment
  rw [hi]
  simp only
  rw [if_neg]
  · exact ⟨_, rfl⟩
  intro ⟨hz, hlast, hbody, hdig⟩
  apply hnp
  obtain ⟨hdecomp, hnotmem, hlt⟩ := charIdx_decomp hi
  refine ⟨seg.take i, (seg.drop (i + 1)).take ((seg.drop (i + 1)).length - 1), ?_, ?_, hnotmem, hbody, hdig⟩
  · conv_lhs => rw [← hdecomp]
    congr 1
    congr 1
    exact eq_take_append_of_getLast hlast
  · intro he
    apply hz
    have hlen : (seg.take i).length = 0 := by rw [he]; rfl
    rw [List.length_take] at hlen
    omega

/-! ## Key-path normalization (parser.go, normalizeTOMLKeyPath) -/

/-- Rendering of an indexed segment: `fmt.Sprintf` with `%s[%d]`. -/
def renderSegment (key : Str) (i : Nat) : Str := key ++ '[' :: (natToDigits i ++ [']'])

/-- One segment of `normalizeTOMLKeyPath`: segments containing `[` that
parse with an index are re-rendered; all others pass through. -/
def normalizeSegment (part : Str) : Str :=
  if '[' ∈ part then
    match parseKeySegment part with
    | .ok ⟨key, some i⟩ => renderSegment key i
    | _ => part
  else part

/-- `normalizeTOMLKeyPath`: split on dots, normalize each segment, join. -/
def normalizeTOMLKeyPath (p : Str) : Str :=
  joinChar '.' ((splitOnChar '.' p).map normalizeSegment)

/-- A well-formed segment in canonical form: bracket-free, or
`name[i]` with the index written canonically (no leading zeros). -/
def WFPart (part : Str) : Prop :=
  '[' ∉ part ∨ ∃ name i, part = renderSegment name i ∧ name ≠ [] ∧ '[' ∉ name

/-- Modelled from the spec: the key-path grammar
`step = name ("[" digits "]")?`, `path = step ("." step)*`, with `name`
nonempty and bracket-free and `digits` a nonempty digit string.  Used
only to exhibit spec-well-formed paths. -/
def specStepOK (part : Str) : Bool :=
  match charIdx '[' part with
  | none => decide (part ≠ []) && decide (']' ∉ part)
  | some i =>
    decide (part.take i ≠ []) && decide (']' ∉ part.take i) &&
    decide ((part.drop (i + 1)).getLast? = some ']') &&
    decide ((part.drop (i + 1)).take ((part.drop (i + 1)).length - 1) ≠ []) &&
    ((part.drop (i + 1)).take ((part.drop (i + 1)).length - 1)).all Char.isDigit

/-- Modelled from the spec: a well-formed key path per the grammar. -/
def specWellFormedPath (p : Str) : Bool := (splitOnChar '.' p).all specStepOK

theorem parseKeySegment_renderSegment (name : Str) (i : Nat) (hne : name ≠ [])
    (hnb : '[' ∉ name) : parseKeySegment (renderSegment name i) = .ok ⟨name, some i⟩ := by
  unfold parseKeySegment renderSegment
  rw [charIdx_append_of_not_mem '[' name _ hnb]
  have htake : (name ++ '[' :: (natToDigits i ++ [']'])).take name.length = name :=
    take_length_append name _
  have hdrop : (name ++ '[' :: (natToDigits i ++ [']'])).drop (name.length + 1) =
      natToDigits i ++ [']'] := by
    have h1 : ((name ++ '[' :: (natToDigits i ++ [']'])).drop name.length).drop 1 =
        (name ++ '[' :: (natToDigits i ++ [']'])).drop (name.length + 1) :=
      List.drop_drop 1 name.length _
    rw [← h1, drop_length_append]
    rfl
  simp only [htake, hdrop]
  have hlen : (natToDigits i ++ [']']).length - 1 = (natToDigits i).length := by simp
  have hbody : (natToDigits i ++ [']']).take ((natToDigits i ++ [']']).length - 1) =
      natToDigits i := by rw [hlen]; exact take_length_append _ _
  simp only [hbody]
  rw [if_pos]
  · rw [digitsToNat_natToDigits]
  · refine ⟨?_, getLast_append_singleton _ _, natToDigits_ne_nil i, ?_⟩
    · intro h0
      apply hne
      cases name with
      | nil => rfl
      | cons c t => simp at h0
    · rw [List.all_eq_true]
      exact natToDigits_all_digit i

theorem normalizeSegment_eq_of_wf (part : Str) (h : WFPart part) :
    normalizeSegment part = part := by
  rcases h with hnb | ⟨name, i, heq, hne, hnb⟩
  · unfold normalizeSegment
    rw [if_neg hnb]
  · subst heq
    have hmem : '[' ∈ renderSegment name i := by
      unfold renderSegment
      simp
    unfold normalizeSegment
    rw [if_pos hmem, parseKeySegment_renderSegment name i hne hnb]

/-- C7 (amended): parse-then-render is the identity on well-formed key
paths whose indices are written in canonical decimal form (no leading
zeros); in particular it is the identity on `a.b[3].c`. -/
theorem c7_normalize_identity (p : Str)
    (h : ∀ part ∈ splitOnChar '.' p, WFPart part) : normalizeTOMLKeyPath p = p := by
  unfold normalizeTOMLKeyPath
  have hmap : (splitOnChar '.' p).map normalizeSegment = (splitOnChar '.' p).map id :=
    List.map_congr_left (fun part hp => normalizeSegment_eq_of_wf part (h part hp))
  rw [hmap, List.map_id, joinChar_splitOnChar]

/-- Witness for C7: the concrete path from the spec, `a.b[3].c`, is
normalized to itself. -/
theorem c7_normalize_identity_witness :
    normalizeTOMLKeyPath (str "a.b[3].c") = str "a.b[3].c" := by
  apply c7_normalize_identity
  intro part hp
  have hsplit : splitOnChar '.' (str "a.b[3].c") = [str "a", str "b[3]", str "c"] := by
    decide
  rw [hsplit] at hp
  simp only [List.mem_cons, List.not_mem_nil, or_false] at hp
  rcases hp with h | h | h
  · subst h; exact Or.inl (by decide)
  · subst h
    refine Or.inr ⟨str "b", 3, ?_, by decide, by decide⟩
    decide
  · subst h; exact Or.inl (by decide)

/-- C7 counterexample: `a[03]` is well-formed under the spec's grammar
(`digits` may carry a leading zero), but parse-then-render produces
`a[3]`, not the identical string. -/
theorem c7_leading_zero_counterexample :
    specWellFormedPath (str "a[03]") = true ∧
    normalizeTOMLKeyPath (str "a[03]") = str "a[3]" ∧
    str "a[3]" ≠ str "a[03]" := by
  refine ⟨by decide, by decide, by decide⟩

/-! ## The value tree (Go `any` values as decoded by the used libraries)

The decoders used by the source (encoding/json, yaml.v3, BurntSushi/toml)
produce `map[string]any` mappings, `[]any` sequences,
`[]map[string]any` TOML table arrays, and scalar values.  (The source
also carries `map[any]any` branches; those can only arise from decoders
not used here and are dead code, so that shape is not part of the value
domain.)  Go floats are not modelled; no claim involves them. -/

inductive GoVal where
  | vnull
  | vbool (b : Bool)
  | vint (n : Int)
  | vstr (s : Str)
  | vmap (entries : List (Str × GoVal))
  | varr (elems : List GoVal)
  | vtarr (elems : List (List (Str × GoVal)))

instance : Inhabited GoVal := ⟨.vnull⟩

/-- Scalar (leaf) values. -/
def isScalar : GoVal → Bool
  | .vnull | .vbool _ | .vint _ | .vstr _ => true
  | _ => false

/-- `Parser.GetValue`'s walk, one parsed segment at a time.  Mirrors the
loop of parser.go GetValue: parse the segment, look the key up in the
current mapping, then index if the segment carries an index (a table
array element is converted to a plain mapping), and return the current
value at the last segment. -/
def getValueSegs : GoVal → List Str → Except Str GoVal
  | _, [] => .error (str "unexpected end of key path")
  | cur, seg :: rest =>
    match parseKeySegment seg with
    | .error e => .error (str "invalid key segment: " ++ e)
    | .ok sg =>
      match cur with
      | .vmap m =>
        match mapGet m sg.key with
        | none => .error (str "key not found")
        | some next =>
          match sg.index with
          | none => if rest = [] then .ok next else getValueSegs next rest
          | some i =>
            match next with
            | .varr a =>
              match a[i]? with
              | none => .error (str "array index out of bounds")
              | some x => if rest = [] then .ok x else getValueSegs x rest
            | .vtarr t =>
              match t[i]? with
              | none => .error (str "array index out of bounds")
              | some em => if rest = [] then .ok (.vmap em) else getValueSegs (.vmap em) rest
            | _ => .error (str "key is not an array")
      | _ => .error (str "key path does not point to an object")

/-- `Parser.GetValue`. -/
def GetValue (data : List (Str × GoVal)) (keyPath : Str) : Except Str GoVal :=
  getValueSegs (.vmap data) (splitOnChar '.' keyPath)

/-- `Parser.SetValue`'s walk.  The source mutates the tree in place and
returns only an error; the model returns the updated tree instead.  Two
deliberate notes: (1) on an error partway down, the source may leave
freshly created intermediate maps behind, which the error result of the
model does not carry; (2) in the intermediate indexed table-array branch
the source copies the element map before descending (parser.go 774-779),
so writes one level below the index are dropped while deeper writes
survive through shared references — aliasing a tree model cannot
express; the model keeps the original tree there, and no theorem in this
file depends on that branch. -/
def setValueSegs : GoVal → List Str → GoVal → Except Str GoVal
  | cur, [], _ => .ok cur
  | cur, [seg], v =>
    match parseKeySegment seg with
    | .error e => .error (str "invalid key segment: " ++ e)
    | .ok sg =>
      match cur with
      | .vmap m =>
        match sg.index with
        | none => .ok (.vmap (mapSet m sg.key v))
        | some i =>
          match mapGet m sg.key with
          | none => .error (str "array key not found")
          | some (.varr a) =>
            match a[i]? with
            | none => .error (str "array index out of bounds")
            | some _ => .ok (.vmap (mapSet m sg.key (.varr (a.set i v))))
          | some (.vtarr t) =>
            if i < t.length then
              .error (str "cannot set primitive value to TOML table array element")
            else .error (str "array index out of bounds")
          | some _ => .error (str "key is not an array")
      | _ => .error (str "cannot set value on non-object type")
  | cur, seg :: rest, v =>
    match parseKeySegment seg with
    | .error e => .error (str "invalid key segment: " ++ e)
    | .ok sg =>
      match cur with
      | .vmap m =>
        match mapGet m sg.key with
        | none =>
          match sg.index with
          | some _ => .error (str "array key not found")
          | none =>
            match setValueSegs (.vmap []) rest v with
            | .error e => .error e
            | .ok sub => .ok (.vmap (mapSet m sg.key sub))
        | some next =>
          match sg.index with
          | none =>
            match setValueSegs next rest v with
            | .error e => .error e
            | .ok sub => .ok (.vmap (mapSet m sg.key sub))
          | some i =>
            match next with
            | .varr a =>
              match a[i]? with
              | none => .error (str "array index out of bounds")
              | some x =>
                match setValueSegs x rest v with
                | .error e => .error e
                | .ok sub => .ok (.vmap (mapSet m sg.key (.varr (a.set i sub))))
            | .vtarr t =>
              match t[i]? with
              | none => .error (str "array index out of bounds")
              | some em =>
                match setValueSegs (.vmap em) rest v with
                | .error e => .error e
                | .ok _ => .ok (.vmap m)
            | _ => .error (str "key is not an array")
      | _ => .error (str "key path conflicts with existing non-object value")

/-- `Parser.SetValue`.  The root is a mapping and the walk returns a
mapping for it; the fallback arm is unreachable (see
`setValueSegs_root_vmap`). -/
def SetValue (data : List (Str × GoVal)) (keyPath : Str) (v : GoVal) :
    Except Str (List (Str × GoVal)) :=
  match setValueSegs (.vmap data) (splitOnChar '.' keyPath) v with
  | .error e => .error e
  | .ok (.vmap m) => .ok m
  | .ok _ => .ok data

/-- A key path whose dot-separated segments are all index-free and
accepted unchanged by the segment grammar. -/
def IndexFreePath (keyPath : Str) : Prop :=
  ∀ seg ∈ splitOnChar '.' keyPath, parseKeySegment seg = .ok ⟨seg, none⟩

instance : DecidableEq (Except Str Segment) := fun a b =>
  match a, b with
  | .ok x, .ok y =>
    if h : x = y then isTrue (by rw [h]) else isFalse (by intro hc; cases hc; exact h rfl)
  | .error x, .error y =>
    if h : x = y then isTrue (by rw [h]) else isFalse (by intro hc; cases hc; exact h rfl)
  | .ok _, .error _ => isFalse (by intro hc; cases hc)
  | .error _, .ok _ => isFalse (by intro hc; cases hc)

instance (keyPath : Str) : Decidable (IndexFreePath keyPath) := by
  unfold IndexFreePath; infer_instance

theorem setValueSegs_root_vmap (segs : List Str) (m : List (Str × GoVal)) (v : GoVal)
    (t : GoVal) (h : setValueSegs (.vmap m) segs v = .ok t) :
    ∃ m2, t = .vmap m2 := by
  match segs with
  | [] =>
    simp only [setValueSegs, Except.ok.injEq] at h
    exact ⟨m, h.symm⟩
  | [seg] =>
    cases hp : parseKeySegment seg with
    | error e => simp [setValueSegs, hp] at h
    | ok sg =>
      obtain ⟨key, idx⟩ := sg
      cases idx with
      | none =>
        simp only [setValueSegs, hp, Except.ok.injEq] at h
        exact ⟨_, h.symm⟩
      | some i =>
        cases hg : mapGet m key with
        | none => simp [setValueSegs, hp, hg] at h
        | some next =>
          cases next with
          | varr a =>
            cases ha : a[i]? with
            | none => simp [setValueSegs, hp, hg, ha] at h
            | some x =>
              simp only [setValueSegs, hp, hg, ha, Except.ok.injEq] at h
              exact ⟨_, h.symm⟩
          | vtarr t2 =>
            by_cases hlt : i < t2.length
            · simp [setValueSegs, hp, hg, hlt] at h
            · simp [setValueSegs, hp, hg, hlt] at h
          | vnull => simp [setValueSegs, hp, hg] at h
          | vbool b => simp [setValueSegs, hp, hg] at h
          | vint n => simp [setValueSegs, hp, hg] at h
          | vstr s => simp [setValueSegs, hp, hg] at h
          | vmap m2 => simp [setValueSegs, hp, hg] at h
  | seg :: s2 :: rest =>
    cases hp : parseKeySegment seg with
    | error e => simp [setValueSegs, hp] at h
    | ok sg =>
      obtain ⟨key, idx⟩ := sg
      cases hg : mapGet m key with
      | none =>
        cases idx with
        | some i => simp [setValueSegs, hp, hg] at h
        | none =>
          cases hrec : setValueSegs (.vmap []) (s2 :: rest) v with
          | error e => simp [setValueSegs, hp, hg, hrec] at h
          | ok sub =>
            simp only [setValueSegs, hp, hg, hrec, Except.ok.injEq] at h
            exact ⟨_, h.symm⟩
      | some next =>
        cases idx with
        | none =>
          cases hrec : setValueSegs next (s2 :: rest) v with
          | error e => simp [setValueSegs, hp, hg, hrec] at h
          | ok sub =>
            simp only [setValueSegs, hp, hg, hrec, Except.ok.injEq] at h
            exact ⟨_, h.symm⟩
        | some i =>
          cases next with
          | varr a =>
            cases ha : a[i]? with
            | none => simp [setValueSegs, hp, hg, ha] at h
            | some x =>
              cases hrec : setValueSegs x (s2 :: rest) v with
              | error e => simp [setValueSegs, hp, hg, ha, hrec] at h
              | ok sub =>
                simp only [setValueSegs, hp, hg, ha, hrec, Except.ok.injEq] at h
                exact ⟨_, h.symm⟩
          | vtarr t2 =>
            cases ha : t2[i]? with
            | none => simp [setValueSegs, hp, hg, ha] at h
            | some em =>
              cases hrec : setValueSegs (.vmap em) (s2 :: rest) v with
              | error e => simp [setValueSegs, hp, hg, ha, hrec] at h
              | ok sub =>
                simp only [setValueSegs, hp, hg, ha, hrec, Except.ok.injEq] at h
                exact ⟨m, h.symm⟩
          | vnull => simp [setValueSegs, hp, hg] at h
          | vbool b => simp [setValueSegs, hp, hg] at h
          | vint n => simp [setValueSegs, hp, hg] at h
          | vstr s => simp [setValueSegs, hp, hg] at h
          | vmap m2 => simp [setValueSegs, hp, hg] at h

theorem setValueSegs_scalar_error (segs : List Str) (w v : GoVal)
    (hs : isScalar w = true) (hne : segs ≠ []) :
    ∃ e, setValueSegs w segs v = .error e := by
  cases segs with
  | nil => exact absurd rfl hne
  | cons seg rest =>
    cases rest with
    | nil =>
      cases hp : parseKeySegment seg with
      | error e => cases w <;> simp [setValueSegs, isScalar, hp] at hs ⊢
      | ok sg => cases w <;> simp [setValueSegs, isScalar, hp] at hs ⊢
    | cons s2 rest2 =>
      cases hp : parseKeySegment seg with
      | error e => cases w <;> simp [setValueSegs, isScalar, hp] at hs ⊢
      | ok sg => cases w <;> simp [setValueSegs, isScalar, hp] at hs ⊢

theorem getValueSegs_cons_plain (m : List (Str × GoVal)) (seg : Str) (rest : List Str)
    (next : GoVal) (hp : parseKeySegment seg = .ok ⟨seg, none⟩)
    (hg : mapGet m seg = some next) (hne : rest ≠ []) :
    getValueSegs (.vmap m) (seg :: rest) = getValueSegs next rest := by
  cases rest with
  | nil => exact absurd rfl hne
  | cons s2 r2 => simp [getValueSegs, hp, hg]

theorem setget_roundtrip (segs : List Str) : ∀ (cur v t : GoVal), segs ≠ [] →
    (∀ seg ∈ segs, parseKeySegment seg = .ok ⟨seg, none⟩) →
    setValueSegs cur segs v = .ok t → getValueSegs t segs = .ok v := by
  induction segs with
  | nil => intro cur v t hne _ _; exact absurd rfl hne
  | cons seg rest ih =>
    intro cur v t _ hparse hset
    have hp : parseKeySegment seg = .ok ⟨seg, none⟩ :=
      hparse seg (List.mem_cons_self seg rest)
    cases rest with
    | nil =>
      cases cur with
      | vmap m =>
        simp only [setValueSegs, hp, Except.ok.injEq] at hset
        subst hset
        simp [getValueSegs, hp, mapGet_mapSet_self]
      | vnull => simp [setValueSegs, hp] at hset
      | vbool b => simp [setValueSegs, hp] at hset
      | vint n => simp [setValueSegs, hp] at hset
      | vstr s => simp [setValueSegs, hp] at hset
      | varr a => simp [setValueSegs, hp] at hset
      | vtarr t2 => simp [setValueSegs, hp] at hset
    | cons s2 rest2 =>
      have hptail : ∀ s ∈ s2 :: rest2, parseKeySegment s = .ok ⟨s, none⟩ :=
        fun s hs => hparse s (List.mem_cons_of_mem seg hs)
      cases cur with
      | vmap m =>
        cases hg : mapGet m seg with
        | none =>
          cases hrec : setValueSegs (.vmap []) (s2 :: rest2) v with
          | error e => simp [setValueSegs, hp, hg, hrec] at hset
          | ok sub =>
            simp only [setValueSegs, hp, hg, hrec, Except.ok.injEq] at hset
            subst hset
            have hih : getValueSegs sub (s2 :: rest2) = .ok v :=
              ih (.vmap []) v sub (by simp) hptail hrec
            rw [getValueSegs_cons_plain (mapSet m seg sub) seg (s2 :: rest2) sub hp
              (mapGet_mapSet_self m seg sub) (by simp)]
            exact hih
        | some next =>
          cases hrec : setValueSegs next (s2 :: rest2) v with
          | error e => simp [setValueSegs, hp, hg, hrec] at hset
          | ok sub =>
            simp only [setValueSegs, hp, hg, hrec, Except.ok.injEq] at hset
            subst hset
            have hih : getValueSegs sub (s2 :: rest2) = .ok v :=
              ih next v sub (by simp) hptail hrec
            rw [getValueSegs_cons_plain (mapSet m seg sub) seg (s2 :: rest2) sub hp
              (mapGet_mapSet_self m seg sub) (by simp)]
            exact hih
      | vnull => simp [setValueSegs, hp] at hset
      | vbool b => simp [setValueSegs, hp] at hset
      | vint n => simp [setValueSegs, hp] at hset
      | vstr s => simp [setValueSegs, hp] at hset
      | varr a => simp [setValueSegs, hp] at hset
      | vtarr t2 => simp [setValueSegs, hp] at hset

/-- C9: over trees whose mappings are plain string maps, (1) a
successful `SetValue` at an index-free path is read back exactly by
`GetValue` (missing intermediate mappings having been created along the
way, as conjunct (2) shows on a missing key); (3) descending through a
scalar is rejected; (4) setting a value into an indexed element of a
TOML table array is rejected with a type error. -/
theorem c9_set_get_roundtrip :
    (∀ (data : List (Str × GoVal)) (keyPath : Str) (v : GoVal)
        (data2 : List (Str × GoVal)), IndexFreePath keyPath →
        SetValue data keyPath v = .ok data2 → GetValue data2 keyPath = .ok v) ∧
    (∀ (m : List (Str × GoVal)) (k1 k2 : Str) (v : GoVal),
        '[' ∉ k1 → '[' ∉ k2 → '.' ∉ k1 → '.' ∉ k2 → mapGet m k1 = none →
        ∃ m2, SetValue m (k1 ++ '.' :: k2) v = .ok m2) ∧
    (∀ (m : List (Str × GoVal)) (k : Str) (segs : List Str) (v w : GoVal),
        mapGet m k = some w → isScalar w = true → segs ≠ [] → '[' ∉ k →
        ∃ e, setValueSegs (.vmap m) (k :: segs) v = .error e) ∧
    (∀ (m : List (Str × GoVal)) (k : Str) (i : Nat)
        (ts : List (List (Str × GoVal))) (v : GoVal),
        mapGet m k = some (.vtarr ts) → i < ts.length → k ≠ [] → '[' ∉ k →
        isScalar v = true →
        setValueSegs (.vmap m) [renderSegment k i] v =
          .error (str "cannot set primitive value to TOML table array element")) := by
  refine ⟨?_, ?_, ?_, ?_⟩
  · intro data keyPath v data2 hif hset
    unfold SetValue at hset
    cases hs : setValueSegs (.vmap data) (splitOnChar '.' keyPath) v with
    | error e => rw [hs] at hset; exact absurd hset (by simp)
    | ok t =>
      obtain ⟨m2, hm2⟩ := setValueSegs_root_vmap _ data v t hs
      subst hm2
      rw [hs] at hset
      simp only [Except.ok.injEq] at hset
      subst hset
      exact setget_roundtrip (splitOnChar '.' keyPath) (.vmap data) v (.vmap m2)
        (splitOnChar_ne_nil '.' keyPath) hif hs
  · intro m k1 k2 v hb1 hb2 hd1 hd2 hg
    have hsplit : splitOnChar '.' (k1 ++ '.' :: k2) = [k1, k2] := by
      rw [splitOnChar_append_sep '.' k1 k2 hd1, splitOnChar_of_not_mem '.' k2 hd2]
    have hp1 := parseKeySegment_no_bracket k1 hb1
    have hp2 := parseKeySegment_no_bracket k2 hb2
    refine ⟨mapSet m k1 (.vmap (mapSet [] k2 v)), ?_⟩
    unfold SetValue
    rw [hsplit]
    have hrec : setValueSegs (.vmap []) [k2] v = .ok (.vmap (mapSet [] k2 v)) := by
      simp [setValueSegs, hp2]
    simp [setValueSegs, hp1, hp2, hg, hrec]
  · intro m k segs v w hg hs hne hb
    have hp := parseKeySegment_no_bracket k hb
    obtain ⟨e, he⟩ := setValueSegs_scalar_error segs w v hs hne
    cases segs with
    | nil => exact absurd rfl hne
    | cons s2 rest2 =>
      refine ⟨e, ?_⟩
      simp [setValueSegs, hp, hg, he]
  · intro m k i ts v hg hlt hkne hb _
    have hp := parseKeySegment_renderSegment k i hkne hb
    simp [setValueSegs, hp, hg, hlt]

/-- Witness for C9: a concrete successful round trip through a created
intermediate mapping. -/
theorem c9_set_get_roundtrip_witness :
    GetValue [(str "x", .vint 1), (str "a", .vmap [(str "b", .vint 7)])]
      (str "a.b") = .ok (.vint 7) :=
  c9_set_get_roundtrip.1 [(str "x", .vint 1)] (str "a.b") (.vint 7)
    [(str "x", .vint 1), (str "a", .vmap [(str "b", .vint 7)])]
    (by decide) rfl

/-- C6 counterexample: the key path `a..b` contains an empty step, yet
the navigator's parsing accepts it — `parseKeySegment` returns the empty
segment as an ordinary key, and `GetValue` proceeds and even resolves
the path on a tree holding an empty-string key, instead of reporting a
syntax error. -/
theorem c6_empty_step_counterexample :
    parseKeySegment [] = .ok ⟨[], none⟩ ∧
    GetValue [(str "a", .vmap [([], .vmap [(str "b", .vint 42)])])] (str "a..b") =
      .ok (.vint 42) :=
  ⟨rfl, rfl⟩

/-- C6 (amended): only segments that contain `[` but fail to match
`name[digits]` — negative or non-numeric indices, an unclosed `[` —
are rejected as syntax errors; a segment without `[` (hence an empty
step arising from consecutive, leading, or trailing dots) is accepted
unchanged as a key, so such malformed paths proceed to name resolution
instead of failing with a syntax error. -/
theorem c6_segment_syntax_errors :
    (∀ seg : Str, '[' ∉ seg → parseKeySegment seg = .ok ⟨seg, none⟩) ∧
    (∀ seg : Str, '[' ∈ seg → ¬ SegPattern seg → ∃ e, parseKeySegment seg = .error e) ∧
    parseKeySegment (str "a[-1]") = .error (str "invalid array syntax: " ++ str "a[-1]") ∧
    parseKeySegment (str "a[x]") = .error (str "invalid array syntax: " ++ str "a[x]") ∧
    parseKeySegment (str "a[1") = .error (str "invalid array syntax: " ++ str "a[1") :=
  ⟨parseKeySegment_no_bracket, parseKeySegment_error_of_not_pattern, rfl, rfl, rfl⟩

/-- Witness for C6: the amended rules applied at concrete segments. -/
theorem c6_segment_syntax_errors_witness :
    (∃ e, parseKeySegment (str "a[1") = .error e) ∧
    parseKeySegment [] = .ok ⟨[], none⟩ :=
  ⟨c6_segment_syntax_errors.2.1 (str "a[1") (by decide)
      (fun hsp => absurd (segPattern_getLast hsp) (by decide)),
   c6_segment_syntax_errors.1 [] (by decide)⟩

/-! ## Value rendering (parser.go, formatYAMLValue / formatTOMLValue) -/

/-- `strings.ReplaceAll(v, quote, backslash-quote)`. -/
def escapeQuotes (s : Str) : Str :=
  s.foldr (fun c acc => if c = '"' then '\\' :: '"' :: acc else c :: acc) []

/-- The character set of `strings.ContainsAny(v, yaml specials)`:
space, colon, both curly braces, both square brackets, double quote. -/
def yamlSpecialChars : List Char := [' ', ':', lbrace, rbrace, '[', ']', '"']

/-- Decimal rendering of a Go int (`%v` / `%d`). -/
def intRepr (n : Int) : Str :=
  if 0 ≤ n then natToDigits n.toNat else '-' :: natToDigits (-n).toNat

/-- `formatYAMLValue`.  Composite values would be printed with Go `%v`
syntax, which is not modelled; no claim renders a composite value. -/
def formatYAMLValue : GoVal → Str
  | .vstr v =>
    if v.any (fun c => c ∈ yamlSpecialChars) ∨ v = [] then
      '"' :: (escapeQuotes v ++ ['"'])
    else v
  | .vbool b => if b then str "true" else str "false"
  | .vint n => intRepr n
  | .vnull => str "<nil>"
  | _ => str "<composite>"

/-- `formatTOMLValue`: strings are always double-quoted. -/
def formatTOMLValue : GoVal → Str
  | .vstr v => '"' :: (escapeQuotes v ++ ['"'])
  | .vbool b => if b then str "true" else str "false"
  | .vint n => intRepr n
  | .vnull => '"' :: (escapeQuotes (str "<nil>") ++ ['"'])
  | _ => '"' :: (escapeQuotes (str "<composite>") ++ ['"'])

/-! ## The shared value-span surgery

`updateYAMLValues` and `updateTOMLValues` contain the identical value
replacement procedure (parser.go 144-177 and 394-427), differing only in
the key pattern (`key:` versus `key =`); it is embedded once. -/

/-- The value-end scan: walk forward tracking double quotes (a quote
preceded by a backslash does not toggle), stopping at an unquoted `#`
or newline.  `prev` is the previously consumed character, `none` at the
start of the value. -/
def scanValueEnd : Str → Option Char → Bool → Nat
  | [], _, _ => 0
  | c :: rest, prev, inQ =>
    if c = '"' ∧ (prev = none ∨ prev ≠ some '\\') then
      1 + scanValueEnd rest (some c) (!inQ)
    else if ¬ inQ ∧ (c = '#' ∨ c = '\n') then 0
    else 1 + scanValueEnd rest (some c) inQ

/-- Strip trailing spaces and tabs (the value-end back-off loop). -/
def rtrimSpaces (s : Str) : Str :=
  (s.reverse.dropWhile (fun c => c = ' ' || c = '\t')).reverse

/-- Locate the value span on a line after the given key pattern:
returns (pattern index, value start, value end). -/
def lineValueSpan (line : Str) (pat : Str) : Option (Nat × Nat × Nat) :=
  match strIndex pat line with
  | none => none
  | some keyIndex =>
    let afterPat := keyIndex + pat.length
    let ws := ((line.drop afterPat).takeWhile (fun c => c = ' ' || c = '\t')).length
    let valueStart := afterPat + ws
    let scanLen := scanValueEnd (line.drop valueStart) none false
    let valueEnd := valueStart + (rtrimSpaces ((line.drop valueStart).take scanLen)).length
    some (keyIndex, valueStart, valueEnd)

/-- Replace exactly the value span of a line; a line in which the key
pattern does not occur is left unchanged (the source's
`if keyIndex >= 0` guard). -/
def updateLineValue (line : Str) (pat : Str) (valueStr : Str) : Str :=
  match lineValueSpan line pat with
  | none => line
  | some (_, s, e) => line.take s ++ valueStr ++ line.drop e

/-! ## YAML line contexts (parser.go, parseYAMLStructure) -/

structure YamlLineCtx where
  lineNumber : Nat
  indentLevel : Int
  key : Str
  isArrayItem : Bool
  arrayIndex : Int
  parentPath : Str
  fullPath : Str
  deriving DecidableEq

/-- The running state of the YAML structure pass: the contexts map, the
indent-level → path map, and the path → array-index map. -/
structure YState where
  contexts : List (Nat × YamlLineCtx)
  currentPaths : List (Int × Str)
  arrayIndices : List (Str × Int)

/-- The parent search loop `for level := indent-2; level >= 0; level -= 2`
(its first iteration coincides with the source's preceding exact-level
lookup; the map never holds negative levels, so checking `l < 0` first is
equivalent).  Fuel-indexed; `indent.toNat + 2` always suffices. -/
def findParentLoop : Nat → List (Int × Str) → Int → Str
  | 0, _, _ => []
  | fuel + 1, cp, l =>
    if l < 0 then []
    else
      match mapGet cp l with
      | some p => p
      | none => findParentLoop fuel cp (l - 2)

/-- `strings.SplitN(s, sep, 2)` as the (before, after) pair around the
first separator; only consulted when the separator is present. -/
def splitN2 (sep : Char) (s : Str) : Str × Str :=
  match charIdx sep s with
  | none => (s, [])
  | some i => (s.take i, s.drop (i + 1))

/-- One line of `parseYAMLStructure`. -/
def yamlLineStep (st : YState) (i : Nat) (line : Str) : YState :=
  let trimmed := trimSpace line
  if trimmed = [] ∨ (str "#").isPrefixOf trimmed then st
  else
    let indent : Int := ((line.length - (line.dropWhile (fun c => c = ' ')).length : Nat) : Int)
    let cp := st.currentPaths.filter (fun kv => kv.1 ≤ indent)
    if (str "- ").isPrefixOf trimmed then
      let arrayContent := trimmed.drop 2
      let parentPath := findParentLoop (indent.toNat + 2) cp (indent - 2)
      let aIdx := match mapGet st.arrayIndices parentPath with
        | none => (-1 : Int)
        | some x => x
      let ai := aIdx + 1
      let arrIdx2 := mapSet st.arrayIndices parentPath ai
      if ':' ∈ arrayContent then
        let key := trimSpace (splitN2 ':' arrayContent).1
        let fullPath :=
          if parentPath ≠ [] then
            parentPath ++ '[' :: (intRepr ai ++ ']' :: '.' :: key)
          else '[' :: (intRepr ai ++ ']' :: '.' :: key)
        let arrayItemPath :=
          if parentPath = [] then '[' :: (intRepr ai ++ [']'])
          else parentPath ++ '[' :: (intRepr ai ++ [']'])
        { contexts := mapSet st.contexts i ⟨i, indent, key, true, ai, parentPath, fullPath⟩,
          currentPaths := mapSet cp (indent + 2) arrayItemPath,
          arrayIndices := arrIdx2 }
      else { st with currentPaths := cp, arrayIndices := arrIdx2 }
    else if ':' ∈ trimmed then
      let parts := splitN2 ':' trimmed
      let key := trimSpace parts.1
      let value := trimSpace parts.2
      let parentPath :=
        if indent = 0 then []
        else
          match mapGet cp indent with
          | some p => p
          | none => findParentLoop (indent.toNat + 2) cp (indent - 2)
      let fullPath := if parentPath ≠ [] then parentPath ++ '.' :: key else key
      if value ≠ [] then
        { st with
          contexts := mapSet st.contexts i ⟨i, indent, key, false, -1, parentPath, fullPath⟩,
          currentPaths := cp }
      else
        { contexts := st.contexts,
          currentPaths := mapSet cp indent fullPath,
          arrayIndices := mapSet st.arrayIndices fullPath (-1) }
    else { st with currentPaths := cp }

/-- `parseYAMLStructure`. -/
def parseYAMLStructure (lines : List Str) : List (Nat × YamlLineCtx) :=
  (lines.enum.foldl (fun st p => yamlLineStep st p.1 p.2) ⟨[], [], []⟩).contexts

/-- `normalizeYAMLKeyPath` is the identity (parser.go 354-357). -/
def normalizeYAMLKeyPath (keyPath : Str) : Str := keyPath

/-- The context scan of `findYAMLLineForKeyPath`.  The source iterates a
Go map in unspecified order; the model scans entries in insertion order
(all claims involve a unique matching context, for which any order
agrees).  The context is returned together with the line number; the
source refetches it from the map, which yields the same entry. -/
def findYAMLCtx (contexts : List (Nat × YamlLineCtx)) (keyPath : Str) :
    Option (Nat × YamlLineCtx) :=
  contexts.find? (fun p => decide (p.2.fullPath = normalizeYAMLKeyPath keyPath))

/-- `findYAMLLineForKeyPath` (Go returns `-1` for "not found"). -/
def findYAMLLineForKeyPath (contexts : List (Nat × YamlLineCtx)) (keyPath : Str) :
    Option Nat :=
  (findYAMLCtx contexts keyPath).map (·.1)

/-! ## The update fold shared by the YAML and TOML rewriters -/

structure ApplyState where
  lines : List Str
  updatedLines : List Nat
  updatedCount : Nat

/-- The per-update loop of `updateYAMLValues` / `updateTOMLValues`:
look the key path up, and if it maps to a not-yet-updated line, rewrite
that line's value span.  `lookup` returns the line number and the
context's key; `mkPat` builds the key pattern searched on the line. -/
def applyUpdates (lookup : Str → Option (Nat × Str)) (mkPat : Str → Str)
    (fmtVal : GoVal → Str) : List (Str × GoVal) → ApplyState → ApplyState
  | [], st => st
  | (keyPath, newValue) :: rest, st =>
    let st2 :=
      match lookup keyPath with
      | none => st
      | some (lineNum, key) =>
        if lineNum ∈ st.updatedLines then st
        else
          { lines := st.lines.set lineNum
              (updateLineValue (st.lines.getD lineNum []) (mkPat key) (fmtVal newValue)),
            updatedLines := lineNum :: st.updatedLines,
            updatedCount := st.updatedCount + 1 }
    applyUpdates lookup mkPat fmtVal rest st2

/-- The update fold of `updateYAMLValues` from the initial state. -/
def yamlApply (content : Str) (updates : List (Str × GoVal)) : ApplyState :=
  applyUpdates
    (fun kp => (findYAMLCtx (parseYAMLStructure (splitOnChar '\n' content)) kp).map
      (fun p => (p.1, p.2.key)))
    (fun key => key ++ [':'])
    formatYAMLValue updates ⟨splitOnChar '\n' content, [], 0⟩

/-- `updateYAMLValues`: updates are passed as a list (the source
iterates a Go map in unspecified order); a failure result means the
file is left untouched (the source returns before `os.WriteFile`). -/
def updateYAMLValues (content : Str) (updates : List (Str × GoVal)) : Except Str Str :=
  if (yamlApply content updates).updatedCount = 0 then
    .error (str "no key paths found in file")
  else .ok (joinChar '\n' (yamlApply content updates).lines)

theorem strIndex_le (pat : Str) (s : Str) (k : Nat) (h : strIndex pat s = some k) :
    k + pat.length ≤ s.length := by
  induction s generalizing k with
  | nil =>
    unfold strIndex at h
    by_cases hp : pat = []
    · simp only [if_pos hp, Option.some.injEq] at h
      simp [hp, ← h]
    · simp [if_neg hp] at h
  | cons c rest ih =>
    unfold strIndex at h
    by_cases hp : pat.isPrefixOf (c :: rest)
    · simp only [if_pos hp, Option.some.injEq] at h
      have := List.IsPrefix.length_le (List.isPrefixOf_iff_prefix.1 hp)
      omega
    · simp only [if_neg hp] at h
      cases hs : strIndex pat rest with
      | none => rw [hs] at h; simp at h
      | some j =>
        rw [hs] at h
        simp only [Option.map_some', Option.some.injEq] at h
        have := ih j hs
        simp only [List.length_cons]
        omega

theorem length_dropWhile_le {α : Type} (p : α → Bool) (l : List α) :
    (l.dropWhile p).length ≤ l.length := by
  induction l with
  | nil => simp
  | cons c t ih =>
    by_cases h : p c
    · simp only [List.dropWhile_cons, h, if_true]
      calc (t.dropWhile p).length ≤ t.length := ih
        _ ≤ (c :: t).length := by simp
    · simp [List.dropWhile_cons, h]

theorem length_takeWhile_le {α : Type} (p : α → Bool) (l : List α) :
    (l.takeWhile p).length ≤ l.length := by
  induction l with
  | nil => simp
  | cons c t ih =>
    by_cases h : p c
    · simp only [List.takeWhile_cons, h, if_true, List.length_cons]
      omega
    · simp [List.takeWhile_cons, h]

theorem getD_mem {α : Type} (l : List α) (n : Nat) (d : α) (h : n < l.length) :
    l.getD n d ∈ l := by
  induction l generalizing n with
  | nil => simp at h
  | cons c t ih =>
    cases n with
    | zero => simp [List.getD]
    | succ n2 =>
      simp only [List.getD_cons_succ]
      exact List.mem_cons_of_mem c (ih n2 (by simpa using h))

theorem getD_default_of_le {α : Type} (l : List α) (n : Nat) (d : α)
    (h : l.length ≤ n) : l.getD n d = d := by
  induction l generalizing n with
  | nil => simp [List.getD]
  | cons c t ih =>
    cases n with
    | zero => simp at h
    | succ n2 => simpa [List.getD_cons_succ] using ih n2 (by simpa using h)

theorem rtrimSpaces_length_le (s : Str) : (rtrimSpaces s).length ≤ s.length := by
  unfold rtrimSpaces
  rw [List.length_reverse]
  calc (s.reverse.dropWhile _).length ≤ s.reverse.length := length_dropWhile_le _ _
    _ = s.length := List.length_reverse s

theorem lineValueSpan_bounds (line pat : Str) (k s e : Nat)
    (h : lineValueSpan line pat = some (k, s, e)) :
    k + pat.length ≤ s ∧ s ≤ e ∧ e ≤ line.length := by
  unfold lineValueSpan at h
  cases hidx : strIndex pat line with
  | none => rw [hidx] at h; simp at h
  | some kIdx =>
    rw [hidx] at h
    simp only [Option.some.injEq, Prod.mk.injEq] at h
    obtain ⟨hk, hs, he⟩ := h
    subst hk
    subst hs
    subst he
    have hkle : kIdx + pat.length ≤ line.length := strIndex_le pat line kIdx hidx
    have h1 : ((line.drop (kIdx + pat.length)).takeWhile
        (fun c => c = ' ' || c = '\t')).length ≤ (line.drop (kIdx + pat.length)).length :=
      length_takeWhile_le _ _
    rw [List.length_drop] at h1
    refine ⟨Nat.le_add_right _ _, Nat.le_add_right _ _, ?_⟩
    have h2 := rtrimSpaces_length_le
      ((line.drop (kIdx + pat.length + ((line.drop (kIdx + pat.length)).takeWhile
        (fun c => c = ' ' || c = '\t')).length)).take
        (scanValueEnd (line.drop (kIdx + pat.length + ((line.drop (kIdx + pat.length)).takeWhile
          (fun c => c = ' ' || c = '\t')).length)) none false))
    rw [List.length_take, List.length_drop] at h2
    omega

theorem getD_set_ne {α : Type} (l : List α) (i j : Nat) (a d : α) (h : i ≠ j) :
    (l.set i a).getD j d = l.getD j d := by
  induction l generalizing i j with
  | nil => simp
  | cons c t ih =>
    cases i with
    | zero =>
      cases j with
      | zero => exact absurd rfl h
      | succ j2 => simp [List.set, List.getD]
    | succ i2 =>
      cases j with
      | zero => simp [List.set, List.getD]
      | succ j2 =>
        simp only [List.set, List.getD_cons_succ]
        exact ih i2 j2 (fun hc => h (by rw [hc]))

/-- C2: a single YAML update whose key path resolves to a leaf line
replaces exactly the value span `[s, e)` of that line — everything
before `s` (indentation, key, colon, the whitespace after the colon)
and everything from `e` on (the trailing inline comment) is preserved
byte-for-byte, every other line of the file is byte-identical, and the
line count is unchanged. -/
theorem c2_yaml_surgical_rewrite (content keyPath : Str) (v : GoVal) (i : Nat)
    (ctx : YamlLineCtx) (kIdx s e : Nat)
    (hfind : findYAMLCtx (parseYAMLStructure (splitOnChar '\n' content)) keyPath =
      some (i, ctx))
    (hspan : lineValueSpan ((splitOnChar '\n' content).getD i []) (ctx.key ++ [':']) =
      some (kIdx, s, e))
    (hnl : '\n' ∉ formatYAMLValue v) :
    ∃ out, updateYAMLValues content [(keyPath, v)] = .ok out ∧
      splitOnChar '\n' out =
        (splitOnChar '\n' content).set i
          (((splitOnChar '\n' content).getD i []).take s ++ formatYAMLValue v ++
            ((splitOnChar '\n' content).getD i []).drop e) ∧
      (splitOnChar '\n' out).length = (splitOnChar '\n' content).length ∧
      (∀ j, j ≠ i → (splitOnChar '\n' out).getD j [] = (splitOnChar '\n' content).getD j []) ∧
      kIdx + ctx.key.length + 1 ≤ s ∧ s ≤ e ∧
      e ≤ ((splitOnChar '\n' content).getD i []).length := by
  have hupd : updateLineValue ((splitOnChar '\n' content).getD i []) (ctx.key ++ [':'])
      (formatYAMLValue v) =
      ((splitOnChar '\n' content).getD i []).take s ++ formatYAMLValue v ++
        ((splitOnChar '\n' content).getD i []).drop e := by
    unfold updateLineValue
    rw [hspan]
  have happ : updateYAMLValues content [(keyPath, v)] =
      .ok (joinChar '\n' ((splitOnChar '\n' content).set i
        (((splitOnChar '\n' content).getD i []).take s ++ formatYAMLValue v ++
          ((splitOnChar '\n' content).getD i []).drop e))) := by
    simp only [updateYAMLValues, yamlApply, applyUpdates, hfind, Option.map_some',
      List.not_mem_nil, if_false, hupd]
    rfl
  have hnewmem : ∀ p ∈ (splitOnChar '\n' content).set i
      (((splitOnChar '\n' content).getD i []).take s ++ formatYAMLValue v ++
        ((splitOnChar '\n' content).getD i []).drop e), '\n' ∉ p := by
    intro p hp
    have hline : '\n' ∉ (splitOnChar '\n' content).getD i [] := by
      by_cases hi : i < (splitOnChar '\n' content).length
      · exact not_mem_of_mem_splitOnChar '\n' content _ (getD_mem _ _ _ hi)
      · rw [getD_default_of_le _ _ _ (by omega)]
        simp
    rcases List.mem_or_eq_of_mem_set hp with hmem | heq
    · exact not_mem_of_mem_splitOnChar '\n' content p hmem
    · subst heq
      intro hin
      rcases List.mem_append.1 hin with hin | hin
      · rcases List.mem_append.1 hin with hin | hin
        · exact hline (List.take_subset _ _ hin)
        · exact hnl hin
      · exact hline (List.drop_subset _ _ hin)
  have hsplit : splitOnChar '\n' (joinChar '\n' ((splitOnChar '\n' content).set i
      (((splitOnChar '\n' content).getD i []).take s ++ formatYAMLValue v ++
        ((splitOnChar '\n' content).getD i []).drop e))) =
      (splitOnChar '\n' content).set i
        (((splitOnChar '\n' content).getD i []).take s ++ formatYAMLValue v ++
          ((splitOnChar '\n' content).getD i []).drop e) := by
    apply splitOnChar_joinChar
    · intro hc
      have := congrArg List.length hc
      rw [List.length_set] at this
      exact splitOnChar_ne_nil '\n' content (List.length_eq_zero.1 this)
    · exact hnewmem
  obtain ⟨hb1, hb2, hb3⟩ := lineValueSpan_bounds _ _ _ _ _ hspan
  refine ⟨_, happ, hsplit, ?_, ?_, ?_, hb2, hb3⟩
  · rw [hsplit, List.length_set]
  · intro j hj
    rw [hsplit]
    exact getD_set_ne _ i j _ _ (fun hc => hj hc.symm)
  · simpa using hb1

/-- Witness for C2: the spec's S1 file — updating `host` to `prod`
rewrites only the value span of line 2, yielding the expected file. -/
theorem c2_yaml_surgical_rewrite_witness :
    updateYAMLValues (str "# hdr\n  host: old   # keep me\n  port: 9\n")
      [(str "host", .vstr (str "prod"))] =
    .ok (str "# hdr\n  host: prod   # keep me\n  port: 9\n") := by
  obtain ⟨out, h1, h2, -⟩ := c2_yaml_surgical_rewrite
    (str "# hdr\n  host: old   # keep me\n  port: 9\n") (str "host")
    (.vstr (str "prod")) 1 ⟨1, 2, str "host", false, -1, [], str "host"⟩ 2 8 11
    (by rfl) (by rfl) (by decide)
  have hout : out = joinChar '\n' (splitOnChar '\n' out) :=
    (joinChar_splitOnChar '\n' out).symm
  rw [h1, hout, h2]
  rfl

/-! ## TOML line contexts (parser.go, parseTOMLStructure) -/

/-- `strings.HasPrefix`. -/
def strHasPrefix (s pre : Str) : Bool := pre.isPrefixOf s

/-- `strings.HasSuffix`. -/
def strHasSuffix (s suf : Str) : Bool := suf.isSuffixOf s

/-- The source's `tomlLineContext`; the Go field `section` is named
`sectionPath` here (`section` is reserved in Lean). -/
structure TomlLineCtx where
  lineNumber : Nat
  key : Str
  sectionPath : Str
  isTableArray : Bool
  arrayIndex : Int
  fullPath : Str
  deriving DecidableEq

/-- The running state of the TOML structure pass. -/
structure TState where
  contexts : List (Nat × TomlLineCtx)
  currentSection : Str
  currentTableArray : Str
  arrayIndex : Int
  lastSectionLine : Int

/-- The gap scan: a blank line strictly between the last section header
and the current line (`for j := lastSectionLine+1; j < i; j++`). -/
def hasGapAfter (lines : List Str) (lastSec : Int) (i : Nat) : Bool :=
  (List.range i).any
    (fun j => decide (lastSec + 1 ≤ (j : Int)) && decide (trimSpace (lines.getD j []) = []))

/-- The top-level test of the key/value branch: a column-0 key with no
section seen yet, or following a blank-line gap after the last header. -/
def tomlIsTopLevel (lines : List Str) (st : TState) (i : Nat) (line : Str) : Bool :=
  if strHasPrefix line (str " ") || strHasPrefix line (str "\t") then false
  else if (0 : Int) ≤ st.lastSectionLine then hasGapAfter lines st.lastSectionLine i
  else true

/-- The context record built for a key/value line. -/
def tomlKVCtx (lines : List Str) (st : TState) (i : Nat) (line : Str) : TomlLineCtx :=
  let key := trimSpace (splitN2 '=' (trimSpace line)).1
  let pathSection : Str × Str :=
    if tomlIsTopLevel lines st i line then (key, [])
    else if st.currentSection ≠ [] then
      (st.currentSection ++ '.' :: key, st.currentSection)
    else (key, [])
  ⟨i, key, pathSection.2,
    decide (st.currentTableArray ≠ []) && decide ((0 : Int) ≤ st.arrayIndex) &&
      !tomlIsTopLevel lines st i line,
    st.arrayIndex, pathSection.1⟩

/-- One line of `parseTOMLStructure`. -/
def tomlLineStep (lines : List Str) (st : TState) (i : Nat) (line : Str) : TState :=
  let trimmed := trimSpace line
  if trimmed = [] ∨ strHasPrefix trimmed (str "#") then st
  else if strHasPrefix trimmed (str "[[") && strHasSuffix trimmed (str "]]") then
    let tableName := trimCharSet ['[', ']'] trimmed
    let ai : Int := if tableName = st.currentTableArray then st.arrayIndex + 1 else 0
    { st with
      currentSection := tableName ++ '[' :: (intRepr ai ++ [']']),
      currentTableArray := tableName,
      arrayIndex := ai,
      lastSectionLine := (i : Int) }
  else if strHasPrefix trimmed (str "[") && strHasSuffix trimmed (str "]") then
    { st with
      currentSection := trimCharSet ['[', ']'] trimmed,
      currentTableArray := [],
      arrayIndex := -1,
      lastSectionLine := (i : Int) }
  else if '=' ∈ trimmed ∧ ¬ strHasPrefix trimmed (str "#") then
    { st with contexts := mapSet st.contexts i (tomlKVCtx lines st i line) }
  else st

/-- `parseTOMLStructure`. -/
def parseTOMLStructure (lines : List Str) : List (Nat × TomlLineCtx) :=
  (lines.enum.foldl (fun st p => tomlLineStep lines st p.1 p.2)
    ⟨[], [], [], -1, -1⟩).contexts

/-- The context scan of `findTOMLLineForKeyPath` (the key path is first
normalized; map iteration order modelled as insertion order). -/
def findTOMLCtx (contexts : List (Nat × TomlLineCtx)) (keyPath : Str) :
    Option (Nat × TomlLineCtx) :=
  contexts.find? (fun p => decide (p.2.fullPath = normalizeTOMLKeyPath keyPath))

/-- The update fold of `updateTOMLValues` from the initial state. -/
def tomlApply (content : Str) (updates : List (Str × GoVal)) : ApplyState :=
  applyUpdates
    (fun kp => (findTOMLCtx (parseTOMLStructure (splitOnChar '\n' content)) kp).map
      (fun p => (p.1, p.2.key)))
    (fun key => key ++ [' ', '='])
    formatTOMLValue updates ⟨splitOnChar '\n' content, [], 0⟩

/-- `updateTOMLValues`: identical to the YAML rewriter except for the
`key =` pattern and the TOML value rendering. -/
def updateTOMLValues (content : Str) (updates : List (Str × GoVal)) : Except Str Str :=
  if (tomlApply content updates).updatedCount = 0 then
    .error (str "no key paths found in file")
  else .ok (joinChar '\n' (tomlApply content updates).lines)

theorem applyUpdates_count_le (lookup : Str → Option (Nat × Str)) (mkPat : Str → Str)
    (fmtVal : GoVal → Str) (updates : List (Str × GoVal)) :
    ∀ st : ApplyState,
      st.updatedCount ≤ (applyUpdates lookup mkPat fmtVal updates st).updatedCount := by
  induction updates with
  | nil => intro st; simp [applyUpdates]
  | cons u rest ih =>
    intro st
    obtain ⟨kp, nv⟩ := u
    unfold applyUpdates
    cases hl : lookup kp with
    | none => exact ih st
    | some lnk =>
      obtain ⟨ln, k⟩ := lnk
      by_cases hmem : ln ∈ st.updatedLines
      · simp only [if_pos hmem]
        exact ih st
      · simp only [if_neg hmem]
        refine Nat.le_trans (Nat.le_succ st.updatedCount) ?_
        exact ih ⟨st.lines.set ln (updateLineValue (st.lines.getD ln []) (mkPat k)
          (fmtVal nv)), ln :: st.updatedLines, st.updatedCount + 1⟩

theorem applyUpdates_all_unmatched (lookup : Str → Option (Nat × Str)) (mkPat : Str → Str)
    (fmtVal : GoVal → Str) (updates : List (Str × GoVal)) (st : ApplyState)
    (h : ∀ p ∈ updates, lookup p.1 = none) :
    applyUpdates lookup mkPat fmtVal updates st = st := by
  induction updates with
  | nil => simp [applyUpdates]
  | cons u rest ih =>
    obtain ⟨kp, nv⟩ := u
    unfold applyUpdates
    rw [h (kp, nv) (List.mem_cons_self _ _)]
    exact ih (fun p hp => h p (List.mem_cons_of_mem _ hp))

theorem applyUpdates_count_ne_zero (lookup : Str → Option (Nat × Str)) (mkPat : Str → Str)
    (fmtVal : GoVal → Str) (rest : List (Str × GoVal)) (ls : List Str) (ul : List Nat)
    (n : Nat) :
    ¬ (applyUpdates lookup mkPat fmtVal rest ⟨ls, ul, n + 1⟩).updatedCount = 0 := by
  intro hc
  have h1 := applyUpdates_count_le lookup mkPat fmtVal rest ⟨ls, ul, n + 1⟩
  have h2 : (⟨ls, ul, n + 1⟩ : ApplyState).updatedCount = n + 1 := rfl
  rw [h2] at h1
  omega

theorem applyUpdates_pos_of_match (lookup : Str → Option (Nat × Str)) (mkPat : Str → Str)
    (fmtVal : GoVal → Str) :
    ∀ (updates : List (Str × GoVal)) (st : ApplyState),
      st.updatedLines.length ≤ st.updatedCount →
      (∃ p ∈ updates, ∃ ln k, lookup p.1 = some (ln, k)) →
      1 ≤ (applyUpdates lookup mkPat fmtVal updates st).updatedCount := by
  intro updates
  induction updates with
  | nil =>
    intro st _ hex
    simp at hex
  | cons u rest ih =>
    intro st hinv hex
    obtain ⟨kp, nv⟩ := u
    unfold applyUpdates
    cases hl : lookup kp with
    | none =>
      have hex2 : ∃ p ∈ rest, ∃ ln k, lookup p.1 = some (ln, k) := by
        obtain ⟨p, hp, ln, k, hpl⟩ := hex
        rcases List.mem_cons.1 hp with h1 | h1
        · subst h1
          have hpl2 : lookup kp = some (ln, k) := hpl
          rw [hl] at hpl2
          exact absurd hpl2 (by simp)
        · exact ⟨p, h1, ln, k, hpl⟩
      exact ih st hinv hex2
    | some lnk =>
      obtain ⟨ln, k⟩ := lnk
      by_cases hmem : ln ∈ st.updatedLines
      · simp only [if_pos hmem]
        have h1 : 1 ≤ st.updatedLines.length := by
          cases hul : st.updatedLines with
          | nil => rw [hul] at hmem; simp at hmem
          | cons a b => simp
        have h2 := applyUpdates_count_le lookup mkPat fmtVal rest st
        omega
      · simp only [if_neg hmem]
        have h2 := applyUpdates_count_le lookup mkPat fmtVal rest
          ⟨st.lines.set ln (updateLineValue (st.lines.getD ln []) (mkPat k) (fmtVal nv)),
           ln :: st.updatedLines, st.updatedCount + 1⟩
        have h3 : (⟨st.lines.set ln (updateLineValue (st.lines.getD ln []) (mkPat k)
            (fmtVal nv)), ln :: st.updatedLines, st.updatedCount + 1⟩ :
            ApplyState).updatedCount = st.updatedCount + 1 := rfl
        rw [h3] at h2
        omega

/-- C3 counterexample: on the YAML file `a: 1`, a batch of two updates
in which `b` does not match any line context does NOT fail — the
operation succeeds, the matched update to `a` is applied, and the file
is rewritten (so the file is partially rewritten and the unresolved
path is silently dropped, contradicting the claim). -/
theorem c3_partial_rewrite_counterexample :
    updateYAMLValues (str "a: 1") [(str "a", .vint 2), (str "b", .vint 3)] =
      .ok (str "a: 2") ∧ str "a: 2" ≠ str "a: 1" := by
  exact ⟨rfl, by decide⟩

/-- C3 (amended): the surgical rewriter fails — leaving the file
unwritten — only when NO requested update's key path matches any line
context (error `no key paths found in file`); when at least one update
matches, the operation succeeds, matched lines are rewritten, and
unmatched key paths are silently ignored rather than reported.  Both the
YAML and the TOML rewriters behave this way. -/
theorem c3_rewriter_failure_behavior :
    (∀ content : Str, ∀ updates : List (Str × GoVal),
      (∀ p ∈ updates,
        findYAMLCtx (parseYAMLStructure (splitOnChar '\n' content)) p.1 = none) →
      updateYAMLValues content updates = .error (str "no key paths found in file")) ∧
    (∀ content : Str, ∀ updates : List (Str × GoVal),
      (∀ p ∈ updates,
        findTOMLCtx (parseTOMLStructure (splitOnChar '\n' content)) p.1 = none) →
      updateTOMLValues content updates = .error (str "no key paths found in file")) ∧
    (∀ content : Str, ∀ updates : List (Str × GoVal),
      (∃ p ∈ updates, ∃ c,
        findYAMLCtx (parseYAMLStructure (splitOnChar '\n' content)) p.1 = some c) →
      ∃ out, updateYAMLValues content updates = .ok out) ∧
    (∀ content : Str, ∀ updates : List (Str × GoVal),
      (∃ p ∈ updates, ∃ c,
        findTOMLCtx (parseTOMLStructure (splitOnChar '\n' content)) p.1 = some c) →
      ∃ out, updateTOMLValues content updates = .ok out) := by
  refine ⟨?_, ?_, ?_, ?_⟩
  · intro content updates h
    unfold updateYAMLValues yamlApply
    rw [applyUpdates_all_unmatched _ _ _ _ _ (fun p hp => by rw [h p hp]; rfl)]
    rfl
  · intro content updates h
    unfold updateTOMLValues tomlApply
    rw [applyUpdates_all_unmatched _ _ _ _ _ (fun p hp => by rw [h p hp]; rfl)]
    rfl
  · intro content updates hex
    have hpos : 1 ≤ (yamlApply content updates).updatedCount := by
      unfold yamlApply
      apply applyUpdates_pos_of_match
      · exact Nat.le_refl 0
      · obtain ⟨p, hp, c, hc⟩ := hex
        exact ⟨p, hp, c.1, c.2.key, by simp [hc]⟩
    unfold updateYAMLValues
    rw [if_neg (by omega)]
    exact ⟨_, rfl⟩
  · intro content updates hex
    have hpos : 1 ≤ (tomlApply content updates).updatedCount := by
      unfold tomlApply
      apply applyUpdates_pos_of_match
      · exact Nat.le_refl 0
      · obtain ⟨p, hp, c, hc⟩ := hex
        exact ⟨p, hp, c.1, c.2.key, by simp [hc]⟩
    unfold updateTOMLValues
    rw [if_neg (by omega)]
    exact ⟨_, rfl⟩

theorem mem_mapSet {α : Type} [DecidableEq α] {β : Type} (m : List (α × β)) (k : α)
    (v : β) (p : α × β) (hp : p ∈ mapSet m k v) : p ∈ m ∨ p = (k, v) := by
  induction m with
  | nil => simpa [mapSet] using hp
  | cons hd tl ih =>
    obtain ⟨k0, w0⟩ := hd
    by_cases h : k0 = k
    · simp only [mapSet, if_pos h] at hp
      rcases List.mem_cons.1 hp with h1 | h1
      · exact Or.inr h1
      · exact Or.inl (List.mem_cons_of_mem _ h1)
    · simp only [mapSet, if_neg h] at hp
      rcases List.mem_cons.1 hp with h1 | h1
      · exact Or.inl (h1 ▸ List.mem_cons_self _ _)
      · rcases ih h1 with h2 | h2
        · exact Or.inl (List.mem_cons_of_mem _ h2)
        · exact Or.inr h2

theorem enumFrom_getD {α : Type} [Inhabited α] (l : List α) :
    ∀ (n : Nat), ∀ q ∈ l.enumFrom n, n ≤ q.1 ∧ l.getD (q.1 - n) default = q.2 := by
  induction l with
  | nil => intro n q hq; simp [List.enumFrom] at hq
  | cons c t ih =>
    intro n q hq
    simp only [List.enumFrom] at hq
    rcases List.mem_cons.1 hq with h1 | h1
    · subst h1
      simp
    · obtain ⟨h2, h3⟩ := ih (n + 1) q h1
      refine ⟨by omega, ?_⟩
      have : q.1 - n = (q.1 - (n + 1)) + 1 := by omega
      rw [this, List.getD_cons_succ, h3]

theorem enum_getD {α : Type} [Inhabited α] (l : List α) (q : Nat × α) (hq : q ∈ l.enum) :
    l.getD q.1 default = q.2 := by
  have := enumFrom_getD l 0 q hq
  simpa using this.2

/-- The generic invariant rule for the TOML structure pass: any property
preserved by each line step holds of all produced contexts. -/
theorem parseTOML_invariant (lines : List Str) (P : Nat × TomlLineCtx → Prop)
    (hstep : ∀ st i line, lines.getD i [] = line → (∀ p ∈ st.contexts, P p) →
      ∀ p ∈ (tomlLineStep lines st i line).contexts, P p) :
    ∀ p ∈ parseTOMLStructure lines, P p := by
  unfold parseTOMLStructure
  suffices h : ∀ el : List (Nat × Str), (∀ q ∈ el, lines.getD q.1 [] = q.2) →
      ∀ st : TState, (∀ p ∈ st.contexts, P p) →
      ∀ p ∈ (el.foldl (fun st q => tomlLineStep lines st q.1 q.2) st).contexts, P p by
    exact h lines.enum (fun q hq => enum_getD lines q hq) ⟨[], [], [], -1, -1⟩ (by simp)
  intro el
  induction el with
  | nil => intro _ st hst p hp; exact hst p hp
  | cons q el2 ih =>
    intro henum st hst
    simp only [List.foldl_cons]
    exact ih (fun r hr => henum r (List.mem_cons_of_mem _ hr)) _
      (hstep st q.1 q.2 (henum q (List.mem_cons_self _ _)) hst)

/-- The guard pattern of the key/value branch of `parseTOMLStructure`:
a nonblank, noncomment, nonheader line containing `=`. -/
def isAssignmentLine (line : Str) : Bool :=
  !(decide (trimSpace line = []) || strHasPrefix (trimSpace line) (str "#")) &&
  !(strHasPrefix (trimSpace line) (str "[[") && strHasSuffix (trimSpace line) (str "]]")) &&
  !(strHasPrefix (trimSpace line) (str "[") && strHasSuffix (trimSpace line) (str "]")) &&
  (decide ('=' ∈ trimSpace line) && !(strHasPrefix (trimSpace line) (str "#")))

theorem applyUpdates_preserve (lookup : Str → Option (Nat × Str)) (mkPat : Str → Str)
    (fmtVal : GoVal → Str) (updates : List (Str × GoVal)) (j : Nat)
    (hdom : ∀ kp ln k, lookup kp = some (ln, k) → ln ≠ j) :
    ∀ st : ApplyState,
      (applyUpdates lookup mkPat fmtVal updates st).lines.getD j [] = st.lines.getD j [] ∧
      (applyUpdates lookup mkPat fmtVal updates st).lines.length = st.lines.length := by
  induction updates with
  | nil => intro st; simp [applyUpdates]
  | cons u rest ih =>
    intro st
    obtain ⟨kp, nv⟩ := u
    unfold applyUpdates
    cases hl : lookup kp with
    | none => exact ih st
    | some lnk =>
      obtain ⟨ln, k⟩ := lnk
      by_cases hmem : ln ∈ st.updatedLines
      · simp only [if_pos hmem]
        exact ih st
      · simp only [if_neg hmem]
        have hne : ln ≠ j := hdom kp ln k hl
        obtain ⟨ihg, ihl⟩ := ih ⟨st.lines.set ln (updateLineValue (st.lines.getD ln [])
          (mkPat k) (fmtVal nv)), ln :: st.updatedLines, st.updatedCount + 1⟩
        refine ⟨?_, ?_⟩
        · rw [ihg]
          exact getD_set_ne _ ln j _ _ hne
        · rw [ihl]
          exact List.length_set _ _ _

theorem tomlKVCtx_fullPath (lines : List Str) (st : TState) (i : Nat) (line : Str) :
    (tomlKVCtx lines st i line).fullPath =
      (if (tomlKVCtx lines st i line).sectionPath = [] then (tomlKVCtx lines st i line).key
        else (tomlKVCtx lines st i line).sectionPath ++ '.' ::
          (tomlKVCtx lines st i line).key) := by
  unfold tomlKVCtx
  by_cases h1 : tomlIsTopLevel lines st i line = true
  · simp [h1]
  · by_cases h2 : st.currentSection ≠ []
    · simp [h1, h2]
    · simp [h1, h2]

theorem tomlLineStep_fullPath (lines : List Str) (st : TState) (i : Nat) (line : Str)
    (hst : ∀ p ∈ st.contexts, p.2.fullPath =
      (if p.2.sectionPath = [] then p.2.key else p.2.sectionPath ++ '.' :: p.2.key)) :
    ∀ p ∈ (tomlLineStep lines st i line).contexts, p.2.fullPath =
      (if p.2.sectionPath = [] then p.2.key else p.2.sectionPath ++ '.' :: p.2.key) := by
  intro p hp
  simp only [tomlLineStep] at hp
  split at hp
  · exact hst p hp
  · split at hp
    · exact hst p hp
    · split at hp
      · exact hst p hp
      · split at hp
        · rcases mem_mapSet _ _ _ p hp with h | h
          · exact hst p h
          · subst h
            exact tomlKVCtx_fullPath lines st i line
        · exact hst p hp

theorem tomlLineStep_assignment (lines : List Str) (st : TState) (i : Nat) (line : Str)
    (hline : lines.getD i [] = line)
    (hst : ∀ p ∈ st.contexts, isAssignmentLine (lines.getD p.1 []) = true) :
    ∀ p ∈ (tomlLineStep lines st i line).contexts,
      isAssignmentLine (lines.getD p.1 []) = true := by
  intro p hp
  simp only [tomlLineStep] at hp
  split at hp
  · exact hst p hp
  · next h1 =>
    split at hp
    · exact hst p hp
    · next h2 =>
      split at hp
      · exact hst p hp
      · next h3 =>
        split at hp
        · next h4 =>
          rcases mem_mapSet _ _ _ p hp with h | h
          · exact hst p h
          · subst h
            show isAssignmentLine (lines.getD i []) = true
            unfold isAssignmentLine
            rw [hline]
            simp only [Bool.and_eq_true, Bool.not_eq_true']
            push_neg at h1
            refine ⟨⟨⟨?_, ?_⟩, ?_⟩, ?_, ?_⟩
            · simp only [Bool.or_eq_false_iff, decide_eq_false_iff_not]
              exact ⟨h1.1, by simpa using h1.2⟩
            · simpa using h2
            · simpa using h3
            · simpa using h4.1
            · simpa using h4.2
        · exact hst p hp

/-- A representative TOML file exercising the section-tracking rules:
a key before any header, a `[name]` section, a repeated `[[name]]`
table array, and a column-0 key after a blank-line gap. -/
def tomlDemo : Str :=
  str "root = 1\n[db]\nhost = \"x\"\n[[srv]]\nport = 1\n[[srv]]\nport = 2\n\ngap = 3\n"

/-- C8: (1) every TOML line context's full path is `section.key`
(just `key` for the empty section), and contexts are assigned only to
assignment lines — never to `[[name]]` headers, comments, or blanks;
(2) a surgical update leaves every line without a context (headers,
comments, blanks) byte-identical and preserves the line count;
(3) a successful update writes exactly the joined line buffer; and
(4) on a representative file the tracker assigns `root` (preceding any
header) and `gap` (column 0 after a blank-line gap) to the empty
section, `host` to `db`, and the repeated `[[srv]]` headers to
`srv[0]` / `srv[1]`, and updating `srv[1].port` leaves the header,
comment, and unmodified key lines byte-identical. -/
theorem c8_toml_structure_and_surgery :
    (∀ lines : List Str, ∀ p ∈ parseTOMLStructure lines,
      p.2.fullPath = (if p.2.sectionPath = [] then p.2.key
        else p.2.sectionPath ++ '.' :: p.2.key) ∧
      isAssignmentLine (lines.getD p.1 []) = true) ∧
    (∀ content : Str, ∀ updates : List (Str × GoVal), ∀ j : Nat,
      (∀ p ∈ parseTOMLStructure (splitOnChar '\n' content), p.1 ≠ j) →
      (tomlApply content updates).lines.getD j [] = (splitOnChar '\n' content).getD j [] ∧
      (tomlApply content updates).lines.length = (splitOnChar '\n' content).length) ∧
    (∀ content : Str, ∀ updates : List (Str × GoVal), ∀ out : Str,
      updateTOMLValues content updates = .ok out →
      out = joinChar '\n' (tomlApply content updates).lines) ∧
    parseTOMLStructure (splitOnChar '\n' tomlDemo) =
      [(0, ⟨0, str "root", [], false, -1, str "root"⟩),
       (2, ⟨2, str "host", str "db", false, -1, str "db.host"⟩),
       (4, ⟨4, str "port", str "srv[0]", true, 0, str "srv[0].port"⟩),
       (6, ⟨6, str "port", str "srv[1]", true, 1, str "srv[1].port"⟩),
       (8, ⟨8, str "gap", [], false, 1, str "gap"⟩)] ∧
    updateTOMLValues tomlDemo [(str "srv[1].port", .vint 9)] =
      .ok (str "root = 1\n[db]\nhost = \"x\"\n[[srv]]\nport = 1\n[[srv]]\nport = 9\n\ngap = 3\n") := by
  refine ⟨?_, ?_, ?_, by decide, by rfl⟩
  · intro lines p hp
    constructor
    · exact parseTOML_invariant lines
        (fun p => p.2.fullPath = (if p.2.sectionPath = [] then p.2.key
          else p.2.sectionPath ++ '.' :: p.2.key))
        (fun st i line _ h => tomlLineStep_fullPath lines st i line h) p hp
    · exact parseTOML_invariant lines
        (fun p => isAssignmentLine (lines.getD p.1 []) = true)
        (fun st i line hl h => tomlLineStep_assignment lines st i line hl h) p hp
  · intro content updates j hdom
    have hlookup : ∀ kp ln k,
        (fun kp => (findTOMLCtx (parseTOMLStructure (splitOnChar '\n' content)) kp).map
          (fun p => (p.1, p.2.key))) kp = some (ln, k) → ln ≠ j := by
      intro kp ln k hl
      simp only at hl
      cases hf : findTOMLCtx (parseTOMLStructure (splitOnChar '\n' content)) kp with
      | none => rw [hf] at hl; simp at hl
      | some q =>
        rw [hf] at hl
        simp only [Option.map_some', Option.some.injEq, Prod.mk.injEq] at hl
        have hmem : q ∈ parseTOMLStructure (splitOnChar '\n' content) :=
          List.mem_of_find?_eq_some hf
        rw [← hl.1]
        exact hdom q hmem
    exact applyUpdates_preserve _ _ _ updates j hlookup ⟨splitOnChar '\n' content, [], 0⟩
  · intro content updates out h
    unfold updateTOMLValues at h
    by_cases hc : (tomlApply content updates).updatedCount = 0
    · rw [if_pos hc] at h
      exact absurd h (by simp)
    · rw [if_neg hc] at h
      simp only [Except.ok.injEq] at h
      exact h.symm

/-- Witness for C8: on the representative file, updating `srv[1].port`
leaves line 3 (the first `[[srv]]` header) byte-identical and preserves
the line count. -/
theorem c8_toml_structure_and_surgery_witness :
    (tomlApply tomlDemo [(str "srv[1].port", .vint 9)]).lines.getD 3 [] =
      (splitOnChar '\n' tomlDemo).getD 3 [] ∧
    (tomlApply tomlDemo [(str "srv[1].port", .vint 9)]).lines.length =
      (splitOnChar '\n' tomlDemo).length :=
  c8_toml_structure_and_surgery.2.1 tomlDemo [(str "srv[1].port", .vint 9)] 3 (by decide)

/-- Witness for C3: the amended behavior at concrete inputs — an
all-unmatched batch fails with the file untouched, and a batch whose
only matching update sits in the second position still succeeds. -/
theorem c3_rewriter_failure_behavior_witness :
    updateYAMLValues (str "a: 1") [(str "zz", .vint 9)] =
      .error (str "no key paths found in file") ∧
    (∃ out, updateYAMLValues (str "a: 1")
      [(str "b", .vint 3), (str "a", .vint 2)] = .ok out) :=
  ⟨c3_rewriter_failure_behavior.1 (str "a: 1") [(str "zz", .vint 9)]
      (by intro p hp; simp only [List.mem_singleton] at hp; subst hp; rfl),
   c3_rewriter_failure_behavior.2.2.1 (str "a: 1")
      [(str "b", .vint 3), (str "a", .vint 2)]
      ⟨(str "a", .vint 2), List.mem_cons_of_mem _ (List.mem_cons_self _ _),
        (0, ⟨0, 0, str "a", false, -1, [], str "a"⟩), rfl⟩⟩

/-! ## Watcher: batch execution per target file (watcher.go) -/

/-- The rule fields consulted by the batch executor.  The file paths and
enabled flag matter only to the matching stage; the best-effort
old/new values carried on events do not affect control flow and are not
modelled. -/
structure SyncRule where
  id : Str
  sourceKey : Str
  targetKey : Str
  deriving DecidableEq, Inhabited

structure SyncEvent where
  ruleID : Str
  success : Bool
  errorMsg : Str
  deriving DecidableEq, Inhabited

/-- `UpdateFileValues`: per-format dispatch of the surgical rewriter.
The JSON branch performs a full decode/re-encode through external
parsers and is not modelled; no theorem exercises it. -/
def UpdateFileValues (targetPath : Str) (content : Str)
    (updates : List (Str × GoVal)) : Except Str Str :=
  if DetectFormat targetPath = FormatYAML then updateYAMLValues content updates
  else if DetectFormat targetPath = FormatTOML then updateTOMLValues content updates
  else if DetectFormat targetPath = FormatJSON then
    .error (str "json full-reformat fallback not modelled")
  else .error (str "unsupported file format for targeted updates")

/-- `processRuleForBatch`: read the source value; on failure produce a
failure event and leave the updates map alone, on success record the
update and produce a success event. -/
def processRuleForBatch (sourceData : List (Str × GoVal)) (rule : SyncRule)
    (updates : List (Str × GoVal)) : SyncEvent × List (Str × GoVal) :=
  match GetValue sourceData rule.sourceKey with
  | .error e => (⟨rule.id, false, str "Failed to get source value: " ++ e⟩, updates)
  | .ok v => (⟨rule.id, true, []⟩, mapSet updates rule.targetKey v)

/-- `processTargetGroup`: collect one event per rule and the updates of
the successful rules, then apply the updates to the target file ONLY if
every rule succeeded (`allSuccessful`); the returned string is the
target file's content after the call (unchanged when the write is
skipped or fails). -/
def processTargetGroup (sourceData : List (Str × GoVal)) (targetPath : Str)
    (targetContent : Str) (rules : List SyncRule) : List SyncEvent × Str :=
  let folded := rules.foldl
    (fun (acc : List SyncEvent × List (Str × GoVal) × Bool) rule =>
      ((acc.1 ++ [(processRuleForBatch sourceData rule acc.2.1).1],
        (processRuleForBatch sourceData rule acc.2.1).2,
        acc.2.2 && (processRuleForBatch sourceData rule acc.2.1).1.success)))
    ([], [], true)
  if folded.2.2 = true ∧ 0 < folded.2.1.length then
    match UpdateFileValues targetPath targetContent folded.2.1 with
    | .error e =>
      (folded.1.map (fun ev => ⟨ev.ruleID, false, str "Failed to update target file: " ++ e⟩),
        targetContent)
    | .ok newContent => (folded.1, newContent)
  else (folded.1, targetContent)

/-- The event produced for one rule, which does not depend on the
accumulated updates map. -/
def eventForRule (sourceData : List (Str × GoVal)) (rule : SyncRule) : SyncEvent :=
  match GetValue sourceData rule.sourceKey with
  | .error e => ⟨rule.id, false, str "Failed to get source value: " ++ e⟩
  | .ok _ => ⟨rule.id, true, []⟩

theorem processRuleForBatch_fst (sourceData : List (Str × GoVal)) (rule : SyncRule)
    (updates : List (Str × GoVal)) :
    (processRuleForBatch sourceData rule updates).1 = eventForRule sourceData rule := by
  unfold processRuleForBatch eventForRule
  cases GetValue sourceData rule.sourceKey <;> rfl

theorem eventForRule_success (sourceData : List (Str × GoVal)) (rule : SyncRule) :
    (eventForRule sourceData rule).success = (GetValue sourceData rule.sourceKey).isOk := by
  unfold eventForRule
  cases GetValue sourceData rule.sourceKey <;> rfl

theorem eventForRule_ruleID (sourceData : List (Str × GoVal)) (rule : SyncRule) :
    (eventForRule sourceData rule).ruleID = rule.id := by
  unfold eventForRule
  cases GetValue sourceData rule.sourceKey <;> rfl

theorem processTargetGroup_fold_spec (sourceData : List (Str × GoVal))
    (rules : List SyncRule) :
    ∀ acc : List SyncEvent × List (Str × GoVal) × Bool,
      (rules.foldl (fun (acc : List SyncEvent × List (Str × GoVal) × Bool) rule =>
        ((acc.1 ++ [(processRuleForBatch sourceData rule acc.2.1).1],
          (processRuleForBatch sourceData rule acc.2.1).2,
          acc.2.2 && (processRuleForBatch sourceData rule acc.2.1).1.success))) acc).1 =
        acc.1 ++ rules.map (eventForRule sourceData) ∧
      (rules.foldl (fun (acc : List SyncEvent × List (Str × GoVal) × Bool) rule =>
        ((acc.1 ++ [(processRuleForBatch sourceData rule acc.2.1).1],
          (processRuleForBatch sourceData rule acc.2.1).2,
          acc.2.2 && (processRuleForBatch sourceData rule acc.2.1).1.success))) acc).2.2 =
        (acc.2.2 && rules.all (fun r => (eventForRule sourceData r).success)) := by
  induction rules with
  | nil => intro acc; simp
  | cons r rest ih =>
    intro acc
    simp only [List.foldl_cons, List.map_cons, List.all_cons]
    obtain ⟨ih1, ih2⟩ := ih ((acc.1 ++ [(processRuleForBatch sourceData r acc.2.1).1],
      (processRuleForBatch sourceData r acc.2.1).2,
      acc.2.2 && (processRuleForBatch sourceData r acc.2.1).1.success))
    refine ⟨?_, ?_⟩
    · rw [ih1]
      simp [processRuleForBatch_fst]
    · rw [ih2]
      simp [processRuleForBatch_fst, Bool.and_assoc]

theorem getD_map_of_lt {α β : Type} (f : α → β) (l : List α) (j : Nat) (d : β) (d2 : α)
    (h : j < l.length) : (l.map f).getD j d = f (l.getD j d2) := by
  induction l generalizing j with
  | nil => simp at h
  | cons c t ih =>
    cases j with
    | zero => simp [List.getD]
    | succ j2 =>
      simp only [List.map_cons, List.getD_cons_succ]
      exact ih j2 (by simpa using h)

/-- C1 counterexample: a batch of 3 rules against one YAML target where
exactly one rule's source key does not resolve.  The engine emits 2
success events and 1 failure event, but the target file is NOT
rewritten at all: the write is suppressed by the `allSuccessful` gate,
so the file does not receive the 2 successful scalar changes the claim
asserts. -/
theorem c1_batch_abort_counterexample :
    (processTargetGroup [(str "a", .vint 1), (str "b", .vint 2)] (str "dst.yaml")
      (str "x: 0\ny: 0\nz: 0\n")
      [⟨str "r1", str "a", str "x"⟩, ⟨str "r2", str "missing", str "y"⟩,
       ⟨str "r3", str "b", str "z"⟩]).1.countP (fun ev => ev.success) = 2 ∧
    (processTargetGroup [(str "a", .vint 1), (str "b", .vint 2)] (str "dst.yaml")
      (str "x: 0\ny: 0\nz: 0\n")
      [⟨str "r1", str "a", str "x"⟩, ⟨str "r2", str "missing", str "y"⟩,
       ⟨str "r3", str "b", str "z"⟩]).1.countP (fun ev => !ev.success) = 1 ∧
    (processTargetGroup [(str "a", .vint 1), (str "b", .vint 2)] (str "dst.yaml")
      (str "x: 0\ny: 0\nz: 0\n")
      [⟨str "r1", str "a", str "x"⟩, ⟨str "r2", str "missing", str "y"⟩,
       ⟨str "r3", str "b", str "z"⟩]).2 = str "x: 0\ny: 0\nz: 0\n" ∧
    str "x: 0\ny: 0\nz: 0\n" ≠ str "x: 1\ny: 0\nz: 2\n" := by
  refine ⟨by decide, by decide, by decide, by decide⟩

/-- C1 (amended): a per-rule source-read error does not stop the other
rules from being evaluated and reported — the engine still emits exactly
one event per rule, success-flagged for the rules that resolve — but it
DOES abort the write for the whole target group: when any rule in the
group fails, no update at all is applied to the target file. -/
theorem c1_per_rule_error_aborts_write (sourceData : List (Str × GoVal))
    (targetPath targetContent : Str) (rules : List SyncRule)
    (hfail : ∃ r ∈ rules, (GetValue sourceData r.sourceKey).isOk = false) :
    (processTargetGroup sourceData targetPath targetContent rules).2 = targetContent ∧
    (processTargetGroup sourceData targetPath targetContent rules).1.length =
      rules.length ∧
    (∀ j, j < rules.length →
      ((processTargetGroup sourceData targetPath targetContent rules).1.getD j
          default).ruleID = (rules.getD j default).id ∧
      ((processTargetGroup sourceData targetPath targetContent rules).1.getD j
          default).success =
        (GetValue sourceData (rules.getD j default).sourceKey).isOk) := by
  obtain ⟨hev, hall⟩ := processTargetGroup_fold_spec sourceData rules ([], [], true)
  have hfalse : rules.all (fun r => (eventForRule sourceData r).success) = false := by
    obtain ⟨r, hr, hko⟩ := hfail
    rw [List.all_eq_false]
    exact ⟨r, hr, by simp [eventForRule_success, hko]⟩
  have hcond : ¬ ((rules.foldl (fun (acc : List SyncEvent × List (Str × GoVal) × Bool) rule =>
      ((acc.1 ++ [(processRuleForBatch sourceData rule acc.2.1).1],
        (processRuleForBatch sourceData rule acc.2.1).2,
        acc.2.2 && (processRuleForBatch sourceData rule acc.2.1).1.success)))
      ([], [], true)).2.2 = true ∧
      0 < (rules.foldl (fun (acc : List SyncEvent × List (Str × GoVal) × Bool) rule =>
      ((acc.1 ++ [(processRuleForBatch sourceData rule acc.2.1).1],
        (processRuleForBatch sourceData rule acc.2.1).2,
        acc.2.2 && (processRuleForBatch sourceData rule acc.2.1).1.success)))
      ([], [], true)).2.1.length) := by
    intro hc
    rw [hall] at hc
    simp only [Bool.true_and] at hc
    rw [hfalse] at hc
    exact absurd hc.1 (by simp)
  unfold processTargetGroup
  rw [if_neg hcond]
  simp only [hev, List.nil_append]
  refine ⟨by simp, by simp, ?_⟩
  intro j hj
  rw [getD_map_of_lt (eventForRule sourceData) rules j default default hj]
  exact ⟨eventForRule_ruleID _ _, eventForRule_success _ _⟩

/-- Witness for C1: the amended statement at the concrete 3-rule batch —
the file content is returned unchanged and the three events match the
per-rule outcomes. -/
theorem c1_per_rule_error_aborts_write_witness :
    (processTargetGroup [(str "a", .vint 1), (str "b", .vint 2)] (str "dst.yaml")
      (str "x: 0\ny: 0\nz: 0\n")
      [⟨str "r1", str "a", str "x"⟩, ⟨str "r2", str "missing", str "y"⟩,
       ⟨str "r3", str "b", str "z"⟩]).2 = str "x: 0\ny: 0\nz: 0\n" :=
  (c1_per_rule_error_aborts_write [(str "a", .vint 1), (str "b", .vint 2)]
    (str "dst.yaml") (str "x: 0\ny: 0\nz: 0\n")
    [⟨str "r1", str "a", str "x"⟩, ⟨str "r2", str "missing", str "y"⟩,
     ⟨str "r3", str "b", str "z"⟩]
    ⟨⟨str "r2", str "missing", str "y"⟩, by decide, by decide⟩).1

/-! ## Watcher: debounce and batch timing (watcher.go) -/

/-- The debounce window, 500 ms. -/
def debounceMs : Nat := 500

/-- The batch delay, 200 ms. -/
def batchDelayMs : Nat := 200

/-- `handleFileChange`'s debounce head: an event within the debounce
window of the last recorded event for the path is dropped WITHOUT
updating the recorded time (the source returns before the map write);
otherwise the event is recorded and accepted.  Times are milliseconds on
a monotone clock, assumed nondecreasing per path. -/
def handleFileChange (lastEvents : List (Str × Nat)) (t : Nat) (path : Str) :
    List (Str × Nat) × Bool :=
  match mapGet lastEvents path with
  | some last =>
    if t - last < debounceMs then (lastEvents, false)
    else (mapSet lastEvents path t, true)
  | none => (mapSet lastEvents path t, true)

/-- The accepted (non-debounced) event times of a time-ordered event
sequence on one path. -/
def processEventTimes (path : Str) : List Nat → List (Str × Nat) → List Nat
  | [], _ => []
  | t :: rest, lastEvents =>
    match handleFileChange lastEvents t path with
    | (le2, true) => t :: processEventTimes path rest le2
    | (le2, false) => processEventTimes path rest le2

/-- The batch timer of `batchRules` / `processBatch`: each accepted
event resets the pending flush to its time plus the batch delay; a
pending flush whose time has already passed when the next accepted event
арrives has fired (the batch was flushed and removed), so it is emitted
and a new batch begins. -/
def batchFlushTimes : List Nat → Option Nat → List Nat
  | [], pending =>
    match pending with
    | none => []
    | some f => [f]
  | t :: rest, pending =>
    match pending with
    | none => batchFlushTimes rest (some (t + batchDelayMs))
    | some f =>
      if f ≤ t then f :: batchFlushTimes rest (some (t + batchDelayMs))
      else batchFlushTimes rest (some (t + batchDelayMs))

/-- End-to-end timing of one source path: debounce, then batch. -/
def simulateSourcePath (path : Str) (times : List Nat) : List Nat :=
  batchFlushTimes (processEventTimes path times []) none

/-- C4 counterexample: five writes at 0, 50, 100, 150, 200 ms. Only the
first is accepted (the rest fall inside the 500 ms window of the first
recorded event), so exactly one batch flushes — but at 200 ms, which is
the batch delay after the FIRST write, not 200 ms after the fifth write
(that would be 400 ms). -/
theorem c4_burst_flush_counterexample :
    processEventTimes (str "src.yaml") [0, 50, 100, 150, 200] [] = [0] ∧
    simulateSourcePath (str "src.yaml") [0, 50, 100, 150, 200] = [200] ∧
    (200 : Nat) ≠ 200 + batchDelayMs := by
  refine ⟨by decide, by decide, by decide⟩

/-- C4 (amended): an event within the debounce window of the last
recorded event for its path is dropped, and the drop does not update the
recorded time nor reset the batch timer; consequently a burst of five
writes at 50 ms spacing coalesces into exactly one batch whose flush
occurs one batch delay (200 ms) after the FIRST write — the only
accepted one — not after the fifth. -/
theorem c4_debounce_drop_behavior :
    (∀ (lastEvents : List (Str × Nat)) (t : Nat) (path : Str) (last : Nat),
      mapGet lastEvents path = some last → t - last < debounceMs →
      handleFileChange lastEvents t path = (lastEvents, false)) ∧
    (∀ (lastEvents : List (Str × Nat)) (t : Nat) (path : Str) (last : Nat),
      mapGet lastEvents path = some last → debounceMs ≤ t - last →
      handleFileChange lastEvents t path = (mapSet lastEvents path t, true)) ∧
    simulateSourcePath (str "src.yaml") [0, 50, 100, 150, 200] = [0 + batchDelayMs] := by
  refine ⟨?_, ?_, by decide⟩
  · intro lastEvents t path last hget hlt
    simp only [handleFileChange, hget]
    rw [if_pos hlt]
  · intro lastEvents t path last hget hge
    simp only [handleFileChange, hget]
    rw [if_neg (by omega)]

/-- Witness for C4: the drop rule applied at a concrete state — a write
at 50 ms after a recorded event at 0 ms is dropped with the state
unchanged. -/
theorem c4_debounce_drop_behavior_witness :
    handleFileChange [(str "src.yaml", 0)] 50 (str "src.yaml") =
      ([(str "src.yaml", 0)], false) :=
  c4_debounce_drop_behavior.1 [(str "src.yaml", 0)] 50 (str "src.yaml") 0
    (by decide) (by decide)

end VarSync
